import Mathlib

/-
Verification of the PointerBase solver of the LLPE integrator
(lib/Analysis/Integrator/PointerBase.cpp and the PointerBase parts of
include/llvm/Analysis/HypotheticalConstantFolder.h).

Values and contexts are identified by numeric ids; the PointerBase lattice,
its insert/merge operations, the PHI/select/call-return merge loop, the
loop-header PHI dispatch, the def-or-clobber cache invalidation and the
double-buffered worklist solver are embedded as executable Lean functions
that mirror the C++ control flow.
-/

namespace LLPE

/-- ValSetType from HypotheticalConstantFolder.h: tag of a PointerBase fact. -/
inductive ValSetType where
  | Unknown
  | PB
  | Scalar
  deriving DecidableEq, Repr

/-- ValCtx from HypotheticalConstantFolder.h: a (value, context, offset, va_arg)
tuple. The IR value and the context are identified by numeric ids; offset and
vaArg are the two int64 fields. Equality is component-wise, matching the
overloaded operator== of the header. -/
structure ValCtx where
  val : Nat
  ctx : Nat
  offset : Int
  vaArg : Int
  deriving DecidableEq, Repr

/-- Encoding of a ValCtx into a lexicographic product, mirroring the
lexicographic operator< of the header (first by value, then context, then
offset, then va_arg). -/
def ValCtx.key (v : ValCtx) : Lex (Nat × Lex (Nat × Lex (Int × Int))) :=
  toLex (v.val, toLex (v.ctx, toLex (v.offset, v.vaArg)))

theorem ValCtx.key_injective : Function.Injective ValCtx.key := by
  intro a b h
  cases a
  cases b
  simp only [ValCtx.key, toLex_inj, Prod.mk.injEq] at h
  simp only [ValCtx.mk.injEq]
  exact ⟨h.1, h.2.1, h.2.2.1, h.2.2.2⟩

instance : LinearOrder ValCtx := LinearOrder.lift' ValCtx.key ValCtx.key_injective

/-- Sorting of a value list by operator< of ValCtx, as done in place by
operator== of PointerBase (std::sort). -/
def sortVCs (l : List ValCtx) : List ValCtx := l.insertionSort (fun a b => a ≤ b)

/-- PBMAX from HypotheticalConstantFolder.h: cardinality cap of a PointerBase
value set. -/
def PBMAX : Nat := 16

/-- PointerBase from HypotheticalConstantFolder.h. The C++ field Type is
renamed Ty (Type is reserved in Lean); Values is the SmallVector of candidate
ValCtxs in insertion order; Overdef is the overdefined flag. -/
structure PointerBase where
  Ty : ValSetType
  Values : List ValCtx
  Overdef : Bool
  deriving DecidableEq, Repr

/-- PointerBase::setOverdef: clear the value set and raise the flag (the type
tag is left unchanged). -/
def PointerBase.setOverdef (pb : PointerBase) : PointerBase :=
  { pb with Values := [], Overdef := true }

/-- PointerBase::isInitialised: overdefined or a non-empty value set. -/
def PointerBase.isInitialised (pb : PointerBase) : Bool :=
  pb.Overdef || pb.Values.length > 0

/-- PointerBase::insert: no-op when overdefined or already present; raises
overdef when a new element would exceed PBMAX; otherwise appends. -/
def PointerBase.insert (pb : PointerBase) (vc : ValCtx) : PointerBase :=
  if pb.Overdef then pb
  else if vc ∈ pb.Values then pb
  else if pb.Values.length + 1 > PBMAX then pb.setOverdef
  else { pb with Values := pb.Values ++ [vc] }

/-- The insertion loop of PointerBase::merge: insert each element of the other
value list while not overdefined (the loop condition it2 and not Overdef). -/
def PointerBase.mergeVals : PointerBase → List ValCtx → PointerBase
  | pb, [] => pb
  | pb, vc :: rest => if pb.Overdef then pb else (pb.insert vc).mergeVals rest

/-- PointerBase::merge: overdef if the other side is overdef; overdef if this
side is initialised and the types differ (the other side's initialisation is
not consulted); otherwise adopt the other side's type and insert its values. -/
def PointerBase.merge (pb other : PointerBase) : PointerBase :=
  if other.Overdef then pb.setOverdef
  else if pb.isInitialised ∧ other.Ty ≠ pb.Ty then pb.setOverdef
  else ({ pb with Ty := other.Ty }).mergeVals other.Values

/-- PointerBase::getOverdef: an overdefined value of unknown type. -/
def PointerBase.getOverdef : PointerBase := ⟨ValSetType.Unknown, [], true⟩

/-- PointerBase::get(VC, t): a singleton value set of the given type. -/
def PointerBase.getTyped (vc : ValCtx) (t : ValSetType) : PointerBase :=
  (PointerBase.mk t [] false).insert vc

/-- Overloaded operator==(PointerBase, PointerBase) of the header: compare the
overdef flags, then (both sides not overdefined) the value-list lengths, then
the two lists sorted by operator<, element by element. The Type tags are never
consulted. Element-wise comparison of equally long sorted lists is list
equality. -/
def PointerBase.beq (a b : PointerBase) : Bool :=
  if a.Overdef ≠ b.Overdef then false
  else if a.Overdef then true
  else if a.Values.length ≠ b.Values.length then false
  else decide (sortVCs a.Values = sortVCs b.Values)

theorem PointerBase.insert_of_overdef {pb : PointerBase} (h : pb.Overdef = true)
    (vc : ValCtx) : pb.insert vc = pb := by
  simp [PointerBase.insert, h]

theorem PointerBase.insert_Ty (pb : PointerBase) (vc : ValCtx) :
    (pb.insert vc).Ty = pb.Ty := by
  unfold PointerBase.insert PointerBase.setOverdef
  split <;> [rfl; skip]
  split <;> [rfl; skip]
  split <;> rfl

/-- Inserting a whole candidate list, one PointerBase::insert at a time. -/
def PointerBase.insertList (pb : PointerBase) (vcs : List ValCtx) : PointerBase :=
  vcs.foldl PointerBase.insert pb

theorem PointerBase.insertList_of_overdef {pb : PointerBase} (h : pb.Overdef = true) :
    ∀ vcs, pb.insertList vcs = pb
  | [] => rfl
  | vc :: rest => by
    have h1 : pb.insert vc = pb := pb.insert_of_overdef h vc
    simp only [PointerBase.insertList, List.foldl_cons, h1]
    exact pb.insertList_of_overdef h rest

theorem PointerBase.insertList_Ty (vcs : List ValCtx) : ∀ pb : PointerBase,
    (pb.insertList vcs).Ty = pb.Ty := by
  induction vcs with
  | nil => intro pb; rfl
  | cons vc rest ih =>
    intro pb
    simp only [PointerBase.insertList, List.foldl_cons]
    exact (ih (pb.insert vc)).trans (pb.insert_Ty vc)

theorem PointerBase.insertList_append (pb : PointerBase) (l1 l2 : List ValCtx) :
    pb.insertList (l1 ++ l2) = (pb.insertList l1).insertList l2 :=
  List.foldl_append _ _ _ _

theorem PointerBase.mergeVals_eq_insertList : ∀ (vcs : List ValCtx) (pb : PointerBase),
    pb.mergeVals vcs = pb.insertList vcs
  | [], _ => rfl
  | vc :: rest, pb => by
    by_cases h : pb.Overdef = true
    · have h1 : pb.insert vc = pb := pb.insert_of_overdef h vc
      simp only [PointerBase.mergeVals, h, if_true, PointerBase.insertList,
        List.foldl_cons, h1]
      exact (pb.insertList_of_overdef h rest).symm
    · simp only [PointerBase.mergeVals, h, if_false, PointerBase.insertList,
        List.foldl_cons]
      exact PointerBase.mergeVals_eq_insertList rest (pb.insert vc)

theorem PointerBase.merge_of_sameTy {pb other : PointerBase}
    (hod : other.Overdef = false) (hty : other.Ty = pb.Ty) :
    pb.merge other = pb.insertList other.Values := by
  have hcond : ¬(pb.isInitialised ∧ other.Ty ≠ pb.Ty) := by
    intro hc
    exact hc.2 hty
  have heta : { pb with Ty := other.Ty } = pb := by
    cases pb
    simp_all
  simp only [PointerBase.merge, hod, Bool.false_eq_true, if_false, hcond, heta,
    PointerBase.mergeVals_eq_insertList]

/-- Accumulate candidates into a duplicate-free list keeping first occurrences,
extending an already duplicate-free prefix: the uncapped set-union that
PointerBase::insert realises below PBMAX (duplicates ignored). -/
def dedupAppend (d : List ValCtx) : List ValCtx → List ValCtx
  | [] => d
  | vc :: rest => if vc ∈ d then dedupAppend d rest else dedupAppend (d ++ [vc]) rest

theorem dedupAppend_length_ge : ∀ (vcs d : List ValCtx),
    d.length ≤ (dedupAppend d vcs).length
  | [], _ => le_refl _
  | vc :: rest, d => by
    by_cases h : vc ∈ d
    · simpa [dedupAppend, h] using dedupAppend_length_ge rest d
    · have h2 := dedupAppend_length_ge rest (d ++ [vc])
      simp only [List.length_append, List.length_singleton] at h2
      simp only [dedupAppend, h, if_false]
      omega

/-- Central cap lemma: folding PointerBase::insert over any candidate list,
starting from a duplicate-free value set not above the cap, yields exactly the
duplicate-free union while it has at most PBMAX elements, and exactly the
overdefined value (flag raised, set emptied) as soon as the union exceeds
PBMAX; the type tag is kept throughout. -/
theorem PointerBase.insertList_characterisation (t : ValSetType) :
    ∀ (vcs d : List ValCtx), d.Nodup → d.length ≤ PBMAX →
    PointerBase.insertList ⟨t, d, false⟩ vcs =
      (if (dedupAppend d vcs).length ≤ PBMAX then ⟨t, dedupAppend d vcs, false⟩
       else ⟨t, [], true⟩)
  | [], d, _, hlen => by
    simp [PointerBase.insertList, dedupAppend, hlen]
  | vc :: rest, d, hnd, hlen => by
    by_cases hmem : vc ∈ d
    · have step : (PointerBase.mk t d false).insert vc = ⟨t, d, false⟩ := by
        simp [PointerBase.insert, hmem]
      simp only [PointerBase.insertList, List.foldl_cons, step, dedupAppend, hmem,
        if_true]
      exact PointerBase.insertList_characterisation t rest d hnd hlen
    · by_cases hcap : d.length + 1 > PBMAX
      · have hdl : d.length = PBMAX := by omega
        have step : (PointerBase.mk t d false).insert vc = ⟨t, [], true⟩ := by
          simp [PointerBase.insert, hmem, hcap, PointerBase.setOverdef]
        have hrest : PointerBase.insertList ⟨t, [], true⟩ rest = ⟨t, [], true⟩ :=
          PointerBase.insertList_of_overdef rfl rest
        have hlong : ¬(dedupAppend d (vc :: rest)).length ≤ PBMAX := by
          have h2 := dedupAppend_length_ge rest (d ++ [vc])
          simp only [dedupAppend, hmem, if_false]
          simp only [List.length_append, List.length_singleton] at h2
          omega
        simp only [PointerBase.insertList, List.foldl_cons, step, hlong, if_false]
        exact hrest
      · have step : (PointerBase.mk t d false).insert vc = ⟨t, d ++ [vc], false⟩ := by
          simp [PointerBase.insert, hmem, hcap]
        have hnd2 : (d ++ [vc]).Nodup := by
          simp [List.nodup_append, hnd, hmem]
        have hlen2 : (d ++ [vc]).length ≤ PBMAX := by
          simp only [List.length_append, List.length_singleton]
          omega
        simp only [PointerBase.insertList, List.foldl_cons, step, dedupAppend, hmem,
          if_false]
        exact PointerBase.insertList_characterisation t rest (d ++ [vc]) hnd2 hlen2

/-- One step of an accumulation sequence over a PointerBase: either a direct
PointerBase::insert of one candidate, or a PointerBase::merge with a
non-overdefined operand of the ambient type holding the listed candidates. -/
inductive PBOp where
  | ins (vc : ValCtx)
  | mrg (vs : List ValCtx)
  deriving Repr

/-- The candidates contributed by one operation. -/
def PBOp.vals : PBOp → List ValCtx
  | .ins vc => [vc]
  | .mrg vs => vs

/-- Apply one operation at ambient type t. -/
def PBOp.apply (t : ValSetType) (pb : PointerBase) : PBOp → PointerBase
  | .ins vc => pb.insert vc
  | .mrg vs => pb.merge ⟨t, vs, false⟩

/-- Apply a whole sequence of operations at ambient type t. -/
def PBOp.applyAll (t : ValSetType) (pb : PointerBase) (ops : List PBOp) : PointerBase :=
  ops.foldl (PBOp.apply t) pb

/-- All candidates contributed by a sequence of operations, in order. -/
def PBOp.allVals : List PBOp → List ValCtx
  | [] => []
  | op :: ops => op.vals ++ PBOp.allVals ops

theorem PBOp.apply_eq_insertList (t : ValSetType) (pb : PointerBase) (op : PBOp)
    (hty : pb.Ty = t) : PBOp.apply t pb op = pb.insertList op.vals := by
  cases op with
  | ins vc => rfl
  | mrg vs =>
    exact PointerBase.merge_of_sameTy rfl hty.symm

theorem PBOp.applyAll_eq_insertList (t : ValSetType) :
    ∀ (ops : List PBOp) (pb : PointerBase), pb.Ty = t →
    PBOp.applyAll t pb ops = pb.insertList (PBOp.allVals ops)
  | [], pb, _ => rfl
  | op :: ops, pb, hty => by
    have h1 : PBOp.apply t pb op = pb.insertList op.vals :=
      PBOp.apply_eq_insertList t pb op hty
    have hty2 : (pb.insertList op.vals).Ty = t :=
      (PointerBase.insertList_Ty op.vals pb).trans hty
    simp only [PBOp.applyAll, List.foldl_cons, h1, PBOp.allVals,
      PointerBase.insertList_append]
    exact PBOp.applyAll_eq_insertList t ops (pb.insertList op.vals) hty2

/-- C2 (confirmed): for every sequence of PointerBase::insert and
PointerBase::merge operations among non-overdefined operands of matching type,
starting from an empty value set, the result is exactly the duplicate-free set
union of all contributed candidates while that union has at most PBMAX = 16
distinct ValCtxs, and exactly the overdefined value (Overdef flag set, value
set emptied) as soon as more than PBMAX distinct candidates accumulate — never
a truncated subset. -/
theorem C2_insert_merge_cap_exact (t : ValSetType) (ops : List PBOp) :
    PBOp.applyAll t ⟨t, [], false⟩ ops =
      (if (dedupAppend [] (PBOp.allVals ops)).length ≤ PBMAX
       then ⟨t, dedupAppend [] (PBOp.allVals ops), false⟩
       else ⟨t, [], true⟩) := by
  have h1 := PBOp.applyAll_eq_insertList t ops ⟨t, [], false⟩ rfl
  have h2 := PointerBase.insertList_characterisation t (PBOp.allVals ops) []
    List.nodup_nil (by simp [PBMAX])
  exact h1.trans h2

theorem sortVCs_perm (l : List ValCtx) : (sortVCs l).Perm l :=
  List.perm_insertionSort _ l

theorem sortVCs_eq_iff {l1 l2 : List ValCtx} :
    sortVCs l1 = sortVCs l2 ↔ l1.Perm l2 := by
  constructor
  · intro h
    have h1 := (sortVCs_perm l1).symm
    rw [h] at h1
    exact h1.trans (sortVCs_perm l2)
  · intro h
    exact List.eq_of_perm_of_sorted
      ((sortVCs_perm l1).trans (h.trans (sortVCs_perm l2).symm))
      (List.sorted_insertionSort _ l1) (List.sorted_insertionSort _ l2)

/-- C10 (confirmed): operator==(PointerBase, PointerBase) disregards the Type
tag entirely — replacing either type tag never changes the outcome, two
overdefined values always compare equal, and two non-overdefined values with
duplicate-free value lists compare equal exactly when the lists hold the same
ValCtxs as unordered sets (both lists being sorted for the comparison). -/
theorem C10_operatorEq_ignores_type (a b : PointerBase) :
    (a.Overdef = true → b.Overdef = true → a.beq b = true) ∧
    (∀ t u : ValSetType,
      PointerBase.beq { a with Ty := t } { b with Ty := u } = a.beq b) ∧
    (a.Overdef = false → b.Overdef = false → a.Values.Nodup → b.Values.Nodup →
      (a.beq b = true ↔ ∀ x, x ∈ a.Values ↔ x ∈ b.Values)) := by
  refine ⟨?_, ?_, ?_⟩
  · intro ha hb
    simp [PointerBase.beq, ha, hb]
  · intro t u
    simp [PointerBase.beq]
  · intro ha hb hna hnb
    constructor
    · intro h
      simp only [PointerBase.beq, ha, hb, ne_eq, not_true_eq_false, if_false,
        Bool.false_eq_true, if_pos rfl] at h
      rcases Decidable.em (a.Values.length = b.Values.length) with hlen | hlen
      · simp only [hlen, not_true_eq_false, if_false, decide_eq_true_eq] at h
        have hperm := sortVCs_eq_iff.mp h
        exact fun x => (List.perm_ext_iff_of_nodup hna hnb).mp hperm x
      · simp [hlen] at h
    · intro hmem
      have hperm : a.Values.Perm b.Values :=
        (List.perm_ext_iff_of_nodup hna hnb).mpr hmem
      have hlen : a.Values.length = b.Values.length := hperm.length_eq
      have hsort : sortVCs a.Values = sortVCs b.Values := sortVCs_eq_iff.mpr hperm
      simp [PointerBase.beq, ha, hb, hlen, hsort]

/-- Witness for C10 at a concrete input: two overdefined values with distinct
type tags compare equal. -/
theorem C10_witness :
    PointerBase.beq ⟨ValSetType.Scalar, [], true⟩ ⟨ValSetType.PB, [], true⟩ = true :=
  (C10_operatorEq_ignores_type ⟨ValSetType.Scalar, [], true⟩
    ⟨ValSetType.PB, [], true⟩).1 rfl rfl

/-- Counterexample to C3 as stated: merging an initialised PointerBase with an
uninitialised (empty, non-overdefined) PointerBase of a different type does
produce overdefined, and clears the receiver's value set — PointerBase::merge
only consults the receiver's isInitialised, not the argument's. -/
theorem C3_counterexample :
    (PointerBase.mk ValSetType.Scalar [⟨0, 0, 0, 0⟩] false).isInitialised = true ∧
    (PointerBase.mk ValSetType.PB [] false).isInitialised = false ∧
    ((PointerBase.mk ValSetType.Scalar [⟨0, 0, 0, 0⟩] false).merge
      (PointerBase.mk ValSetType.PB [] false)).Overdef = true ∧
    ((PointerBase.mk ValSetType.Scalar [⟨0, 0, 0, 0⟩] false).merge
      (PointerBase.mk ValSetType.PB [] false)).Values = [] := by
  decide

/-- C3 (corrected): a.merge(b) is overdefined whenever either side is
overdefined; when b is not overdefined and the types differ, the receiver a
being initialised alone forces a.setOverdef (b's initialisation is never
consulted); otherwise (matching types, or a uninitialised) the result adopts
b's type and is the capped duplicate-free union of the two value sets. -/
theorem C3_merge_characterisation (a b : PointerBase) :
    ((a.Overdef || b.Overdef) = true → (a.merge b).Overdef = true) ∧
    (b.Overdef = false → a.Ty ≠ b.Ty → a.isInitialised = true →
      a.merge b = a.setOverdef) ∧
    (b.Overdef = false → (a.Ty = b.Ty ∨ a.isInitialised = false) →
      a.Overdef = false → a.Values.Nodup → a.Values.length ≤ PBMAX →
      a.merge b =
        (if (dedupAppend a.Values b.Values).length ≤ PBMAX
         then ⟨b.Ty, dedupAppend a.Values b.Values, false⟩
         else ⟨b.Ty, [], true⟩)) := by
  refine ⟨?_, ?_, ?_⟩
  · intro h
    rcases Bool.or_eq_true_iff.mp h with ha | hb
    · by_cases hbo : b.Overdef = true
      · simp [PointerBase.merge, hbo, PointerBase.setOverdef]
      · have hbo2 : b.Overdef = false := by
          cases hb2 : b.Overdef
          · rfl
          · exact absurd hb2 hbo
        by_cases hcond : a.isInitialised ∧ b.Ty ≠ a.Ty
        · simp [PointerBase.merge, hbo2, hcond, PointerBase.setOverdef]
        · have hodm : ({ a with Ty := b.Ty } : PointerBase).Overdef = true := ha
          have h1 : ({ a with Ty := b.Ty } : PointerBase).mergeVals b.Values =
              { a with Ty := b.Ty } := by
            rw [PointerBase.mergeVals_eq_insertList]
            exact PointerBase.insertList_of_overdef hodm b.Values
          simp only [PointerBase.merge, hbo2, Bool.false_eq_true, if_false, hcond,
            if_false, h1]
          exact ha
    · simp [PointerBase.merge, hb, PointerBase.setOverdef]
  · intro hbo hty hinit
    have hcond : a.isInitialised ∧ b.Ty ≠ a.Ty := ⟨hinit, fun h => hty h.symm⟩
    simp [PointerBase.merge, hbo, hcond]
  · intro hbo hty hao hnd hlen
    rcases hty with hty | hty
    · have h1 : a.merge b = a.insertList b.Values :=
        PointerBase.merge_of_sameTy hbo hty.symm
      have ha2 : a = ⟨a.Ty, a.Values, false⟩ := by
        cases a
        simp_all
      rw [h1, ha2]
      rw [PointerBase.insertList_characterisation a.Ty b.Values a.Values hnd hlen]
      rw [hty]
    · have hcond : ¬(a.isInitialised ∧ b.Ty ≠ a.Ty) := by
        intro hc
        rw [hty] at hc
        exact absurd hc.1 (by simp)
      have hempty : a.Values = [] := by
        unfold PointerBase.isInitialised at hty
        simp only [hao, Bool.false_or, decide_eq_false_iff_not, not_lt,
          Nat.le_zero, List.length_eq_zero] at hty
        exact hty
      have hrw : ({ a with Ty := b.Ty } : PointerBase) = ⟨b.Ty, [], false⟩ := by
        cases a
        simp_all
      simp only [PointerBase.merge, hbo, Bool.false_eq_true, if_false, hcond,
        PointerBase.mergeVals_eq_insertList, hrw]
      rw [PointerBase.insertList_characterisation b.Ty b.Values [] List.nodup_nil
        (by simp [PBMAX])]
      rw [hempty]

/-- Witness for C3 at concrete inputs: merge with an overdefined argument is
overdefined; an initialised scalar merged with a pointer-typed singleton of a
different type is exactly setOverdef; two same-typed scalar singletons merge to
their two-element union. -/
theorem C3_witness :
    ((PointerBase.mk ValSetType.Scalar [⟨0, 0, 0, 0⟩] false).merge
      PointerBase.getOverdef).Overdef = true ∧
    (PointerBase.mk ValSetType.Scalar [⟨0, 0, 0, 0⟩] false).merge
      (PointerBase.mk ValSetType.PB [⟨1, 0, 0, 0⟩] false) =
      (PointerBase.mk ValSetType.Scalar [⟨0, 0, 0, 0⟩] false).setOverdef ∧
    (PointerBase.mk ValSetType.Scalar [⟨0, 0, 0, 0⟩] false).merge
      (PointerBase.mk ValSetType.Scalar [⟨1, 0, 0, 0⟩] false) =
      ⟨ValSetType.Scalar, [⟨0, 0, 0, 0⟩, ⟨1, 0, 0, 0⟩], false⟩ := by
  refine ⟨?_, ?_, ?_⟩
  · exact (C3_merge_characterisation _ _).1 (by decide)
  · exact (C3_merge_characterisation _ _).2.1 rfl (by decide) rfl
  · exact ((C3_merge_characterisation (PointerBase.mk ValSetType.Scalar [⟨0, 0, 0, 0⟩] false)
      (PointerBase.mk ValSetType.Scalar [⟨1, 0, 0, 0⟩] false)).2.2 rfl (Or.inl rfl) rfl
      (by decide) (by decide)).trans (by decide)

/-- Well-formedness shared by every PointerBase the solver constructs: an
overdefined value has an empty value list (setOverdef clears it and insert
never adds to an overdefined value). -/
def PointerBase.WFOD (pb : PointerBase) : Prop :=
  pb.Overdef = true → pb.Values = []

theorem PointerBase.insert_eq_cases (pb : PointerBase) (vc : ValCtx) :
    pb.insert vc = pb ∨ pb.insert vc = pb.setOverdef ∨
    (pb.Overdef = false ∧ pb.insert vc = { pb with Values := pb.Values ++ [vc] }) := by
  unfold PointerBase.insert
  split
  · exact Or.inl rfl
  next hod =>
    split
    · exact Or.inl rfl
    · split
      · exact Or.inr (Or.inl rfl)
      · exact Or.inr (Or.inr ⟨by simpa using hod, rfl⟩)

theorem PointerBase.WFOD_insert {pb : PointerBase} (h : pb.WFOD) (vc : ValCtx) :
    (pb.insert vc).WFOD := by
  rcases pb.insert_eq_cases vc with hc | hc | ⟨hod, hc⟩
  · rw [hc]
    exact h
  · rw [hc]
    intro _
    rfl
  · rw [hc]
    intro hcontra
    exact absurd hcontra (by simp [hod])

theorem PointerBase.WFOD_insertList {pb : PointerBase} (h : pb.WFOD)
    (vcs : List ValCtx) : (pb.insertList vcs).WFOD := by
  induction vcs generalizing pb with
  | nil => exact h
  | cons vc rest ih =>
    exact ih (pb.WFOD_insert h vc)

theorem PointerBase.WFOD_merge {a : PointerBase} (h : a.WFOD) (b : PointerBase) :
    (a.merge b).WFOD := by
  unfold PointerBase.merge
  split
  · intro _
    rfl
  · split
    · intro _
      rfl
    · rw [PointerBase.mergeVals_eq_insertList]
      exact @PointerBase.WFOD_insertList { a with Ty := b.Ty } (fun hx => h hx) b.Values

/-- The merge loop of IntegrationAttempt::getMergeBasePointer: walk the
collected predecessors while NewPB is not overdefined; a predecessor whose
getValSetOrReplacement found no fact (none) is skipped when finalise is false
and makes the loop return overdef immediately (result true) when finalise is
true; a present fact is merged and anyInfo is raised. The pair is the returned
boolean (anyInfo) together with NewPB. -/
def mergePreds (finalise : Bool) : List (Option PointerBase) → PointerBase → Bool →
    Bool × PointerBase
  | [], acc, anyInfo => (anyInfo, acc)
  | p :: rest, acc, anyInfo =>
    if acc.Overdef then (anyInfo, acc)
    else
      match p with
      | none =>
        if finalise then (true, PointerBase.getOverdef)
        else mergePreds finalise rest acc anyInfo
      | some vpb => mergePreds finalise rest (acc.merge vpb) true

/-- One potential predecessor of a PHI / select / inlined-call-return merge:
dead is the edgeIsDead (for PHI incoming edges) or blockIsDead (for return
blocks of an inlined call) test that excludes it from Vals; fact is what
getValSetOrReplacement yields for its value (none when it returns false). -/
structure MergePred where
  dead : Bool
  fact : Option PointerBase
  deriving DecidableEq, Repr

/-- IntegrationAttempt::getMergeBasePointer with the construction of Vals
abstracted to the list of potential predecessors: dead predecessors are
skipped while building Vals, then the merge loop runs on a fresh
default-constructed NewPB with anyInfo false. -/
def getMergeBasePointer (finalise : Bool) (preds : List MergePred) :
    Bool × PointerBase :=
  mergePreds finalise ((preds.filter (fun p => !p.dead)).map MergePred.fact)
    ⟨ValSetType.Unknown, [], false⟩ false

/-- Folding PointerBase::merge over a list of facts with the merge loop's
overdef early stop. -/
def mergeFacts (acc : PointerBase) : List PointerBase → PointerBase
  | [] => acc
  | f :: rest => if acc.Overdef then acc else mergeFacts (acc.merge f) rest

theorem mergeFacts_of_overdef {acc : PointerBase} (h : acc.Overdef = true) :
    ∀ l, mergeFacts acc l = acc
  | [] => rfl
  | f :: rest => by simp [mergeFacts, h]

/-- The facts of the feasible (non-dead) predecessors that are present. -/
def feasibleFacts (preds : List MergePred) : List PointerBase :=
  (preds.filter (fun p => !p.dead)).filterMap MergePred.fact

theorem mergePreds_false_eq :
    ∀ (l : List (Option PointerBase)) (acc : PointerBase) (any : Bool),
    (acc.Overdef = true → any = true) →
    mergePreds false l acc any =
      ((any || !(l.filterMap id).isEmpty), mergeFacts acc (l.filterMap id))
  | [], acc, any, _ => by simp [mergePreds, mergeFacts]
  | none :: rest, acc, any, h => by
    by_cases hod : acc.Overdef = true
    · have hany : any = true := h hod
      simp [mergePreds, hod, hany, mergeFacts_of_overdef hod]
    · simp only [mergePreds, hod, if_false, Bool.false_eq_true]
      rw [mergePreds_false_eq rest acc any h]
      simp [List.filterMap_cons]
  | some f :: rest, acc, any, h => by
    by_cases hod : acc.Overdef = true
    · have hany : any = true := h hod
      simp [mergePreds, hod, hany, mergeFacts_of_overdef hod]
    · simp only [mergePreds, hod, if_false, Bool.false_eq_true]
      rw [mergePreds_false_eq rest (acc.merge f) true (fun _ => rfl)]
      simp [List.filterMap_cons, mergeFacts, hod]

theorem mergePreds_true_none :
    ∀ (l : List (Option PointerBase)) (acc : PointerBase) (any : Bool),
    none ∈ l → acc.WFOD → (acc.Overdef = true → any = true) →
    (mergePreds true l acc any).1 = true ∧
    (mergePreds true l acc any).2.Overdef = true ∧
    (mergePreds true l acc any).2.Values = []
  | [], _, _, hmem, _, _ => absurd hmem (List.not_mem_nil none)
  | p :: rest, acc, any, hmem, hwf, hany => by
    by_cases hod : acc.Overdef = true
    · rw [show mergePreds true (p :: rest) acc any = (any, acc) from by
        simp [mergePreds, hod]]
      exact ⟨hany hod, hod, hwf hod⟩
    · simp only [mergePreds, hod, Bool.false_eq_true, if_false]
      cases p with
      | none => simp [PointerBase.getOverdef]
      | some f =>
        have hmem2 : none ∈ rest := by
          rcases List.mem_cons.mp hmem with h | h
          · exact absurd h.symm (by simp)
          · exact h
        exact mergePreds_true_none rest (acc.merge f) true hmem2
          (PointerBase.WFOD_merge hwf f) (fun _ => rfl)

/-- C1 (confirmed): in the merge computed by getMergeBasePointer over the
feasible (non-dead-edge, non-dead-return-block) predecessors, a predecessor
with no PointerBase fact is silently skipped when finalise is false, the
result being the merge of the remaining predecessors' facts (anyInfo true iff
at least one fact was present); when finalise is true any feasible predecessor
with no fact makes the result exactly overdefined; in particular a PHI with
two live incoming edges, one with fact containing a single pointer and one
with no fact, yields that singleton under finalise=false and overdefined under
finalise=true. -/
theorem C1_merge_two_phase_rule (preds : List MergePred) :
    (getMergeBasePointer false preds =
      (!(feasibleFacts preds).isEmpty,
        mergeFacts ⟨ValSetType.Unknown, [], false⟩ (feasibleFacts preds))) ∧
    ((∃ p ∈ preds, p.dead = false ∧ p.fact = none) →
      (getMergeBasePointer true preds).1 = true ∧
      (getMergeBasePointer true preds).2.Overdef = true ∧
      (getMergeBasePointer true preds).2.Values = []) ∧
    (getMergeBasePointer false
        [⟨false, some ⟨ValSetType.PB, [⟨0, 0, 0, 0⟩], false⟩⟩, ⟨false, none⟩] =
      (true, ⟨ValSetType.PB, [⟨0, 0, 0, 0⟩], false⟩) ∧
     getMergeBasePointer true
        [⟨false, some ⟨ValSetType.PB, [⟨0, 0, 0, 0⟩], false⟩⟩, ⟨false, none⟩] =
      (true, PointerBase.getOverdef)) := by
  refine ⟨?_, ?_, by decide⟩
  · rw [getMergeBasePointer,
      mergePreds_false_eq _ _ _ (fun h => absurd h (by decide))]
    simp [feasibleFacts, List.filterMap_map, Function.comp]
  · intro ⟨p, hp, hdead, hfact⟩
    apply mergePreds_true_none
    · have hfeas : p ∈ preds.filter (fun q => !q.dead) := by
        rw [List.mem_filter]
        exact ⟨hp, by simp [hdead]⟩
      have hmap : p.fact ∈ (preds.filter (fun q => !q.dead)).map MergePred.fact :=
        List.mem_map_of_mem MergePred.fact hfeas
      rwa [hfact] at hmap
    · exact fun h => absurd h (by decide)
    · exact fun h => absurd h (by decide)

/-- Witness for C1 at a concrete input: a two-predecessor PHI with one dead
edge, one live fact-less edge and one live singleton-fact edge is overdefined
under finalise=true. -/
theorem C1_witness :
    (getMergeBasePointer true
        [⟨true, none⟩, ⟨false, some ⟨ValSetType.Scalar, [⟨3, 1, 0, 0⟩], false⟩⟩,
         ⟨false, none⟩]).2.Overdef = true :=
  ((C1_merge_two_phase_rule
    [⟨true, none⟩, ⟨false, some ⟨ValSetType.Scalar, [⟨3, 1, 0, 0⟩], false⟩⟩,
     ⟨false, none⟩]).2.1
    ⟨⟨false, none⟩, by decide, rfl, rfl⟩).2.1

/-- The blocks of a loop consulted by updateHeaderPHIPB: header, preheader and
latch (getHeader, getLoopPreheader, getLoopLatch), as numeric block ids. -/
structure LoopBlocks where
  header : Nat
  preheader : Nat
  latch : Nat
  deriving DecidableEq, Repr

/-- A PHI node as consulted by updateHeaderPHIPB: its parent block and the
map from incoming block id to incoming value id (getIncomingValueForBlock). -/
structure PHINode where
  parentBlock : Nat
  incoming : Nat → Nat

/-- A PeelIteration as consulted by updateHeaderPHIPB: the loop being peeled
(none models a null L), the iteration number (getIterCount), the id of the
parent context, and the context ids of this PeelAttempt's iterations
(parentPA->getIteration). -/
structure PeelIteration where
  L : Option LoopBlocks
  iterCount : Nat
  parentCtx : Nat
  iterationCtx : Nat → Nat

/-- PeelIteration::updateHeaderPHIPB. The getPointerBaseFalling lookup in the
chosen context is abstracted as env (context id → value id → optional fact).
The outer Option is the returned bool (none models return false: not a header
PHI); the inner Option is NewPBValid with NewPB. Iteration 0 builds Repl from
the preheader incoming value in the parent context; iteration N from the
latch incoming value in iteration N-1. -/
def PeelIteration.updateHeaderPHIPB (pi : PeelIteration)
    (env : Nat → Nat → Option PointerBase) (pn : PHINode) :
    Option (Option PointerBase) :=
  match pi.L with
  | some l =>
    if l.header = pn.parentBlock then
      let repl : Nat × Nat :=
        if pi.iterCount = 0 then (pn.incoming l.preheader, pi.parentCtx)
        else (pn.incoming l.latch, pi.iterationCtx (pi.iterCount - 1))
      some (env repl.2 repl.1)
    else none
  | none => none

/-- InlineAttempt::updateHeaderPHIPB: unconditionally returns false. -/
def InlineAttempt.updateHeaderPHIPB (_env : Nat → Nat → Option PointerBase)
    (_pn : PHINode) : Option (Option PointerBase) :=
  none

/-- C5 (confirmed): for a loop-header PHI evaluated in a peel iteration whose
loop header is the PHI's block, iteration 0 pulls the PHI's incoming value for
the loop preheader from the parent context, and every iteration N+1 pulls the
incoming value for the loop latch from iteration N of the same PeelAttempt. -/
theorem C5_header_phi_iteration_dispatch (pi : PeelIteration)
    (env : Nat → Nat → Option PointerBase) (pn : PHINode) (l : LoopBlocks)
    (hL : pi.L = some l) (hdr : l.header = pn.parentBlock) :
    (pi.iterCount = 0 →
      pi.updateHeaderPHIPB env pn =
        some (env pi.parentCtx (pn.incoming l.preheader))) ∧
    (∀ n, pi.iterCount = n + 1 →
      pi.updateHeaderPHIPB env pn =
        some (env (pi.iterationCtx n) (pn.incoming l.latch))) := by
  constructor
  · intro h0
    simp [PeelIteration.updateHeaderPHIPB, hL, hdr, h0]
  · intro n hn
    simp [PeelIteration.updateHeaderPHIPB, hL, hdr, hn]

/-- Witness for C5 at concrete inputs: iteration 0 reads the preheader value
in the parent context; iteration 3 reads the latch value in iteration 2. -/
theorem C5_witness :
    (PeelIteration.mk (some ⟨10, 11, 12⟩) 0 100 (fun k => 200 + k)).updateHeaderPHIPB
      (fun c v => if c = 100 ∧ v = 7 then
        some ⟨ValSetType.PB, [⟨42, 0, 0, 0⟩], false⟩ else none)
      ⟨10, fun b => if b = 11 then 7 else 8⟩ =
      some (some ⟨ValSetType.PB, [⟨42, 0, 0, 0⟩], false⟩) ∧
    (PeelIteration.mk (some ⟨10, 11, 12⟩) 3 100 (fun k => 200 + k)).updateHeaderPHIPB
      (fun c v => if c = 202 ∧ v = 8 then
        some ⟨ValSetType.Scalar, [⟨5, 0, 0, 0⟩], false⟩ else none)
      ⟨10, fun b => if b = 11 then 7 else 8⟩ =
      some (some ⟨ValSetType.Scalar, [⟨5, 0, 0, 0⟩], false⟩) := by
  constructor
  · exact ((C5_header_phi_iteration_dispatch _ _ _ ⟨10, 11, 12⟩ rfl rfl).1 rfl).trans
      (by decide)
  · exact ((C5_header_phi_iteration_dispatch _ _ _ ⟨10, 11, 12⟩ rfl rfl).2 2 rfl).trans
      (by decide)

/-- The binary opcodes handled by updateBinopValSet. -/
inductive BinOpcode where
  | add
  | sub
  | and
  | or
  | xor
  deriving DecidableEq, Repr

/-- The cross-product constant-folding loop of updateBinopValSet for two
scalar operand sets. fold abstracts ConstantExpr::get followed by
ConstantFoldConstantExpression (none for a null fold result); getVC abstracts
PointerBase::get(const_vc(Expr)) turning the folded constant into a
PointerBase. Each pair is folded and merged while PB is not overdefined, a
failed fold merging getOverdef. -/
def crossFold (fold : BinOpcode → ValCtx → ValCtx → Option ValCtx)
    (getVC : ValCtx → PointerBase) (op : BinOpcode)
    (vs1 vs2 : List ValCtx) : PointerBase :=
  vs1.foldl (fun acc v1 =>
    vs2.foldl (fun acc2 v2 =>
      if acc2.Overdef then acc2
      else
        match fold op v1 v2 with
        | some c => acc2.merge (getVC c)
        | none => acc2.merge PointerBase.getOverdef) acc)
    ⟨ValSetType.Unknown, [], false⟩

/-- IntegrationAttempt::updateBinopValSet. The two operand lookups
(getValSetOrReplacement) are o1 and o2, none when the lookup fails, in which
case the corresponding OpPB stays default-constructed (unknown type, empty,
not overdef). The result none models return false (no conclusion drawn). -/
def updateBinopValSet (fold : BinOpcode → ValCtx → ValCtx → Option ValCtx)
    (getVC : ValCtx → PointerBase) (op : BinOpcode)
    (o1 o2 : Option PointerBase) : Option PointerBase :=
  let p1 := o1.getD ⟨ValSetType.Unknown, [], false⟩
  let p2 := o2.getD ⟨ValSetType.Unknown, [], false⟩
  if o1 = none ∧ o2 = none then none
  else if o1.isSome ∧ o2.isSome ∧ (p1.Overdef || p2.Overdef) then
    some PointerBase.getOverdef
  else if p1.Ty = ValSetType.PB ∨ p2.Ty = ValSetType.PB then
    match op with
    | .add | .sub =>
      if p1.Ty = ValSetType.PB ∧ p2.Ty = ValSetType.PB then
        some PointerBase.getOverdef
      else some (if p1.Ty = ValSetType.PB then p1 else p2)
    | _ => none
  else if p1.Ty ≠ ValSetType.Scalar ∨ p2.Ty ≠ ValSetType.Scalar then none
  else some (crossFold fold getVC op p1.Values p2.Values)

/-- The fold results of every pair of the cross product, in the iteration
order of updateBinopValSet (outer loop over the first set). -/
def foldedPairs (fold : BinOpcode → ValCtx → ValCtx → Option ValCtx)
    (op : BinOpcode) : List ValCtx → List ValCtx → List (Option ValCtx)
  | [], _ => []
  | v :: rest, vs2 => vs2.map (fold op v) ++ foldedPairs fold op rest vs2

/-- One step of the cross-product loop applied to an already-folded pair. -/
def foldStep (getVC : ValCtx → PointerBase) (acc : PointerBase)
    (x : Option ValCtx) : PointerBase :=
  if acc.Overdef then acc
  else
    match x with
    | some c => acc.merge (getVC c)
    | none => acc.merge PointerBase.getOverdef

/-- The cross-product loop replayed over a flat list of folded pairs. -/
def applyFolded (getVC : ValCtx → PointerBase) (acc : PointerBase)
    (l : List (Option ValCtx)) : PointerBase :=
  l.foldl (foldStep getVC) acc

theorem crossFold_eq_applyFolded (fold : BinOpcode → ValCtx → ValCtx → Option ValCtx)
    (getVC : ValCtx → PointerBase) (op : BinOpcode) (vs1 vs2 : List ValCtx) :
    crossFold fold getVC op vs1 vs2 =
      applyFolded getVC ⟨ValSetType.Unknown, [], false⟩ (foldedPairs fold op vs1 vs2) := by
  suffices h : ∀ (vs : List ValCtx) (acc : PointerBase),
      vs.foldl (fun acc v1 =>
        vs2.foldl (fun acc2 v2 =>
          if acc2.Overdef then acc2
          else
            match fold op v1 v2 with
            | some c => acc2.merge (getVC c)
            | none => acc2.merge PointerBase.getOverdef) acc) acc =
      applyFolded getVC acc (foldedPairs fold op vs vs2) by
    exact h vs1 _
  intro vs
  induction vs with
  | nil => intro acc; rfl
  | cons v rest ih =>
    intro acc
    have hinner : vs2.foldl (fun acc2 v2 =>
        if acc2.Overdef then acc2
        else
          match fold op v v2 with
          | some c => acc2.merge (getVC c)
          | none => acc2.merge PointerBase.getOverdef) acc =
        applyFolded getVC acc (vs2.map (fold op v)) := by
      rw [applyFolded, List.foldl_map]
      rfl
    simp only [List.foldl_cons, hinner, ih, foldedPairs]
    simp [applyFolded, List.foldl_append]

theorem applyFolded_of_overdef (getVC : ValCtx → PointerBase) {acc : PointerBase}
    (h : acc.Overdef = true) : ∀ l, applyFolded getVC acc l = acc
  | [] => rfl
  | x :: rest => by
    have hstep : foldStep getVC acc x = acc := by simp [foldStep, h]
    simp only [applyFolded, List.foldl_cons, hstep]
    exact applyFolded_of_overdef getVC h rest

theorem PointerBase.merge_getOverdef (a : PointerBase) :
    a.merge PointerBase.getOverdef = a.setOverdef := by
  simp [PointerBase.merge, PointerBase.getOverdef]

theorem applyFolded_none_mem (getVC : ValCtx → PointerBase) :
    ∀ (l : List (Option ValCtx)) (acc : PointerBase), none ∈ l →
    (applyFolded getVC acc l).Overdef = true
  | [], _, hmem => absurd hmem (List.not_mem_nil none)
  | x :: rest, acc, hmem => by
    by_cases hod : acc.Overdef = true
    · rw [applyFolded_of_overdef getVC hod]
      exact hod
    · cases x with
      | none =>
        have hstep : foldStep getVC acc none = acc.setOverdef := by
          simp [foldStep, hod, PointerBase.merge_getOverdef]
        simp only [applyFolded, List.foldl_cons, hstep]
        rw [show (List.foldl (foldStep getVC) acc.setOverdef rest) =
          applyFolded getVC acc.setOverdef rest from rfl]
        rw [applyFolded_of_overdef getVC rfl]
        rfl
      | some c =>
        have hmem2 : none ∈ rest := by
          rcases List.mem_cons.mp hmem with h | h
          · exact absurd h.symm (by simp)
          · exact h
        have hstep : foldStep getVC acc (some c) = acc.merge (getVC c) := by
          simp [foldStep, hod]
        simp only [applyFolded, List.foldl_cons, hstep]
        exact applyFolded_none_mem getVC rest (acc.merge (getVC c)) hmem2

/-- PointerBase::get(const_vc(C)) for a folded scalar constant: non-pointer
constants classify as a singleton scalar set. -/
def scalarConstVC (c : ValCtx) : PointerBase :=
  PointerBase.getTyped c ValSetType.Scalar

theorem PointerBase.getTyped_eq (vc : ValCtx) (t : ValSetType) :
    PointerBase.getTyped vc t = ⟨t, [vc], false⟩ := by
  simp [PointerBase.getTyped, PointerBase.insert, PBMAX]

theorem applyFolded_all_some_scalar :
    ∀ (l : List (Option ValCtx)) (acc : PointerBase), none ∉ l →
    acc.Ty = ValSetType.Scalar →
    applyFolded scalarConstVC acc l = acc.insertList l.reduceOption
  | [], _, _, _ => rfl
  | x :: rest, acc, hnm, hty => by
    cases x with
    | none => exact absurd (List.mem_cons_self none rest) hnm
    | some c =>
      have hnm2 : none ∉ rest := fun h => hnm (List.mem_cons_of_mem _ h)
      by_cases hod : acc.Overdef = true
      · rw [applyFolded_of_overdef scalarConstVC hod]
        rw [PointerBase.insertList_of_overdef hod]
      · have hstep : foldStep scalarConstVC acc (some c) = acc.insert c := by
          have hmerge : acc.merge (scalarConstVC c) = acc.insertList [c] := by
            rw [show scalarConstVC c = ⟨ValSetType.Scalar, [c], false⟩ from
              PointerBase.getTyped_eq c ValSetType.Scalar]
            exact PointerBase.merge_of_sameTy rfl hty.symm
          simp only [foldStep, hod, Bool.false_eq_true, if_false, hmerge]
          rfl
        have hty2 : (acc.insert c).Ty = ValSetType.Scalar :=
          (acc.insert_Ty c).trans hty
        simp only [applyFolded, List.foldl_cons, hstep, List.reduceOption_cons_of_some]
        rw [show List.foldl (foldStep scalarConstVC) (acc.insert c) rest =
          applyFolded scalarConstVC (acc.insert c) rest from rfl]
        rw [applyFolded_all_some_scalar rest (acc.insert c) hnm2 hty2]
        rfl

/-- Counterexample to C4 as stated: an And of two non-overdefined
pointer-typed operand facts yields no conclusion at all (updateBinopValSet
returns false through its default switch case), not overdefined. -/
theorem C4_counterexample :
    updateBinopValSet (fun _ _ _ => none) scalarConstVC BinOpcode.and
      (some ⟨ValSetType.PB, [⟨0, 0, 0, 0⟩], false⟩)
      (some ⟨ValSetType.PB, [⟨1, 0, 0, 0⟩], false⟩) = none ∧
    updateBinopValSet (fun _ _ _ => none) scalarConstVC BinOpcode.and
      (some ⟨ValSetType.PB, [⟨0, 0, 0, 0⟩], false⟩)
      (some ⟨ValSetType.PB, [⟨1, 0, 0, 0⟩], false⟩) ≠
      some PointerBase.getOverdef := by
  constructor
  · decide
  · decide

theorem applyFolded_success_char (l : List (Option ValCtx)) (hnm : none ∉ l)
    (hne : l ≠ []) :
    applyFolded scalarConstVC ⟨ValSetType.Unknown, [], false⟩ l =
      (if (dedupAppend [] l.reduceOption).length ≤ PBMAX
       then ⟨ValSetType.Scalar, dedupAppend [] l.reduceOption, false⟩
       else ⟨ValSetType.Scalar, [], true⟩) := by
  cases l with
  | nil => exact absurd rfl hne
  | cons x rest =>
    cases x with
    | none => exact absurd (List.mem_cons_self none rest) hnm
    | some c =>
      have hnm2 : none ∉ rest := fun h => hnm (List.mem_cons_of_mem _ h)
      have hstep : foldStep scalarConstVC ⟨ValSetType.Unknown, [], false⟩ (some c) =
          ⟨ValSetType.Scalar, [c], false⟩ := by
        simp only [foldStep, scalarConstVC, PointerBase.getTyped_eq]
        rw [if_neg (by decide)]
        simp [PointerBase.merge, PointerBase.isInitialised,
          PointerBase.mergeVals, PointerBase.insert, PBMAX]
      have hrw : applyFolded scalarConstVC ⟨ValSetType.Unknown, [], false⟩
          (some c :: rest) =
          applyFolded scalarConstVC ⟨ValSetType.Scalar, [c], false⟩ rest := by
        simp only [applyFolded, List.foldl_cons, hstep]
      rw [hrw, applyFolded_all_some_scalar rest ⟨ValSetType.Scalar, [c], false⟩ hnm2 rfl]
      have hins : (PointerBase.mk ValSetType.Scalar [c] false).insertList
          rest.reduceOption =
          (PointerBase.mk ValSetType.Scalar [] false).insertList
            (c :: rest.reduceOption) := by
        have h1 : (PointerBase.mk ValSetType.Scalar [] false).insert c =
            ⟨ValSetType.Scalar, [c], false⟩ := PointerBase.getTyped_eq c _
        simp [PointerBase.insertList, h1]
      rw [hins, PointerBase.insertList_characterisation ValSetType.Scalar
        (c :: rest.reduceOption) [] List.nodup_nil (by simp [PBMAX])]
      simp [List.reduceOption_cons_of_some]

/-- C4 (corrected): for a binary operator with at least one operand fact:
if either fact is overdefined (both lookups succeeding) the result is
overdefined for every opcode; two non-overdefined pointer-typed facts give
overdefined only under Add and Sub, while And, Or and Xor draw no conclusion
at all (updateBinopValSet returns false, storing nothing); exactly one
pointer-typed fact with Add or Sub yields exactly that side's fact (also when
the other lookup failed); two scalar facts yield the cross-product
constant-fold, which is overdefined as soon as any pair fails to fold and
otherwise is the capped duplicate-free union of the folded constants. -/
theorem C4_binop_transfer (fold : BinOpcode → ValCtx → ValCtx → Option ValCtx)
    (getVC : ValCtx → PointerBase) (op : BinOpcode) (p1 p2 : PointerBase) :
    ((p1.Overdef || p2.Overdef) = true →
      updateBinopValSet fold getVC op (some p1) (some p2) =
        some PointerBase.getOverdef) ∧
    ((p1.Overdef || p2.Overdef) = false → p1.Ty = ValSetType.PB →
      p2.Ty = ValSetType.PB →
      (((op = BinOpcode.add ∨ op = BinOpcode.sub) →
        updateBinopValSet fold getVC op (some p1) (some p2) =
          some PointerBase.getOverdef) ∧
       ((op = BinOpcode.and ∨ op = BinOpcode.or ∨ op = BinOpcode.xor) →
        updateBinopValSet fold getVC op (some p1) (some p2) = none))) ∧
    ((p1.Overdef || p2.Overdef) = false → (op = BinOpcode.add ∨ op = BinOpcode.sub) →
      (p1.Ty = ValSetType.PB → p2.Ty ≠ ValSetType.PB →
        updateBinopValSet fold getVC op (some p1) (some p2) = some p1) ∧
      (p1.Ty ≠ ValSetType.PB → p2.Ty = ValSetType.PB →
        updateBinopValSet fold getVC op (some p1) (some p2) = some p2)) ∧
    ((op = BinOpcode.add ∨ op = BinOpcode.sub) → p1.Ty = ValSetType.PB →
      updateBinopValSet fold getVC op (some p1) none = some p1) ∧
    ((p1.Overdef || p2.Overdef) = false → p1.Ty = ValSetType.Scalar →
      p2.Ty = ValSetType.Scalar →
      updateBinopValSet fold getVC op (some p1) (some p2) =
        some (crossFold fold getVC op p1.Values p2.Values)) ∧
    (∀ vs1 vs2 : List ValCtx, none ∈ foldedPairs fold op vs1 vs2 →
      (crossFold fold getVC op vs1 vs2).Overdef = true) ∧
    (∀ vs1 vs2 : List ValCtx, none ∉ foldedPairs fold op vs1 vs2 →
      foldedPairs fold op vs1 vs2 ≠ [] →
      crossFold fold scalarConstVC op vs1 vs2 =
        (if (dedupAppend [] (foldedPairs fold op vs1 vs2).reduceOption).length ≤ PBMAX
         then ⟨ValSetType.Scalar,
           dedupAppend [] (foldedPairs fold op vs1 vs2).reduceOption, false⟩
         else ⟨ValSetType.Scalar, [], true⟩)) := by
  refine ⟨?_, ?_, ?_, ?_, ?_, ?_, ?_⟩
  · intro hov
    simp [updateBinopValSet, hov]
  · intro hov h1 h2
    constructor
    · intro hop
      rcases hop with hop | hop <;> subst hop <;>
        simp [updateBinopValSet, hov, h1, h2]
    · intro hop
      rcases hop with hop | hop | hop <;> subst hop <;>
        simp [updateBinopValSet, hov, h1, h2]
  · intro hov hop
    constructor
    · intro h1 h2
      rcases hop with hop | hop <;> subst hop <;>
        simp [updateBinopValSet, hov, h1, h2]
    · intro h1 h2
      rcases hop with hop | hop <;> subst hop <;>
        simp [updateBinopValSet, hov, h1, h2]
  · intro hop h1
    rcases hop with hop | hop <;> subst hop <;>
      simp [updateBinopValSet, h1]
  · intro hov h1 h2
    simp [updateBinopValSet, hov, h1, h2]
  · intro vs1 vs2 hmem
    rw [crossFold_eq_applyFolded]
    exact applyFolded_none_mem getVC _ _ hmem
  · intro vs1 vs2 hnm hne
    rw [crossFold_eq_applyFolded]
    exact applyFolded_success_char _ hnm hne

/-- Witness for C4 at concrete inputs: an overdefined operand forces
overdefined; Add over a pointer fact and a scalar fact yields the pointer
fact; a And over two scalar singletons that folds to one constant yields that
singleton. -/
theorem C4_witness :
    updateBinopValSet (fun _ _ _ => none) scalarConstVC BinOpcode.xor
      (some PointerBase.getOverdef)
      (some ⟨ValSetType.Scalar, [⟨1, 0, 0, 0⟩], false⟩) =
      some PointerBase.getOverdef ∧
    updateBinopValSet (fun _ _ _ => none) scalarConstVC BinOpcode.add
      (some ⟨ValSetType.PB, [⟨2, 0, 0, 0⟩], false⟩)
      (some ⟨ValSetType.Scalar, [⟨1, 0, 0, 0⟩], false⟩) =
      some ⟨ValSetType.PB, [⟨2, 0, 0, 0⟩], false⟩ ∧
    crossFold (fun _ _ _ => some ⟨9, 0, 0, 0⟩) scalarConstVC BinOpcode.and
      [⟨1, 0, 0, 0⟩] [⟨2, 0, 0, 0⟩] = ⟨ValSetType.Scalar, [⟨9, 0, 0, 0⟩], false⟩ := by
  refine ⟨?_, ?_, ?_⟩
  · exact (C4_binop_transfer (fun _ _ _ => none) scalarConstVC BinOpcode.xor
      PointerBase.getOverdef ⟨ValSetType.Scalar, [⟨1, 0, 0, 0⟩], false⟩).1 rfl
  · exact ((C4_binop_transfer (fun _ _ _ => none) scalarConstVC BinOpcode.add
      ⟨ValSetType.PB, [⟨2, 0, 0, 0⟩], false⟩
      ⟨ValSetType.Scalar, [⟨1, 0, 0, 0⟩], false⟩).2.2.1 rfl (Or.inl rfl)).1 rfl
      (by decide)
  · exact (((C4_binop_transfer (fun _ _ _ => some ⟨9, 0, 0, 0⟩) scalarConstVC
      BinOpcode.and ⟨ValSetType.Scalar, [], false⟩
      ⟨ValSetType.Scalar, [], false⟩).2.2.2.2.2.2 [⟨1, 0, 0, 0⟩] [⟨2, 0, 0, 0⟩]
      (by decide) (by decide)).trans (by decide))

/-- Lookup of the first entry with the given (context, instruction or load)
key in an association list (DenseMap::find). -/
def alistFind {α : Type} (k : Nat × Nat) : List ((Nat × Nat) × α) → Option α
  | [] => none
  | e :: rest => if e.1 = k then some e.2 else alistFind k rest

/-- Erase every entry with the given key (DenseMap::erase). -/
def alistErase {α : Type} (k : Nat × Nat) (m : List ((Nat × Nat) × α)) :
    List ((Nat × Nat) × α) :=
  m.filter (fun e => e.1 ≠ k)

/-- Apply f to the entries with the given key. -/
def alistModify {α : Type} (k : Nat × Nat) (f : α → α)
    (m : List ((Nat × Nat) × α)) : List ((Nat × Nat) × α) :=
  m.map (fun e => if e.1 = k then (e.1, f e.2) else e)

theorem alistFind_erase_self {α : Type} (k : Nat × Nat) :
    ∀ m : List ((Nat × Nat) × α), alistFind k (alistErase k m) = none
  | [] => rfl
  | e :: rest => by
    by_cases h : e.1 = k
    · have hdrop : alistErase k (e :: rest) = alistErase k rest := by
        simp [alistErase, h]
      rw [hdrop]
      exact alistFind_erase_self k rest
    · have hkeep : alistErase k (e :: rest) = e :: alistErase k rest := by
        simp [alistErase, h]
      rw [hkeep]
      show (if e.1 = k then some e.2 else alistFind k (alistErase k rest)) = none
      rw [if_neg h]
      exact alistFind_erase_self k rest

theorem alistFind_modify_self {α : Type} (k : Nat × Nat) (f : α → α) :
    ∀ m : List ((Nat × Nat) × α),
    alistFind k (alistModify k f m) = Option.map f (alistFind k m)
  | [] => rfl
  | e :: rest => by
    by_cases h : e.1 = k
    · have hhd : alistModify k f (e :: rest) = (e.1, f e.2) :: alistModify k f rest := by
        simp [alistModify, h]
      rw [hhd]
      show (if (e.1, f e.2).1 = k then some (e.1, f e.2).2
        else alistFind k (alistModify k f rest)) = _
      rw [if_pos h]
      show _ = Option.map f (if e.1 = k then some e.2 else alistFind k rest)
      rw [if_pos h]
      rfl
    · have hhd : alistModify k f (e :: rest) = e :: alistModify k f rest := by
        simp [alistModify, h]
      rw [hhd]
      show (if e.1 = k then some e.2 else alistFind k (alistModify k f rest)) = _
      rw [if_neg h]
      show _ = Option.map f (if e.1 = k then some e.2 else alistFind k rest)
      rw [if_neg h]
      exact alistFind_modify_self k f rest

theorem alistFind_modify_other {α : Type} {k k2 : Nat × Nat} (f : α → α)
    (h : k2 ≠ k) : ∀ m : List ((Nat × Nat) × α),
    alistFind k2 (alistModify k f m) = alistFind k2 m
  | [] => rfl
  | e :: rest => by
    by_cases h3 : e.1 = k
    · have hhd : alistModify k f (e :: rest) = (e.1, f e.2) :: alistModify k f rest := by
        simp [alistModify, h3]
      rw [hhd]
      show (if (e.1, f e.2).1 = k2 then some (e.1, f e.2).2
        else alistFind k2 (alistModify k f rest)) = _
      have hne : ¬((e.1, f e.2).1 = k2) := by
        intro hc
        exact h (hc.symm.trans h3)
      rw [if_neg hne]
      show _ = (if e.1 = k2 then some e.2 else alistFind k2 rest)
      rw [if_neg (fun hc => hne hc)]
      exact alistFind_modify_other f h rest
    · have hhd : alistModify k f (e :: rest) = e :: alistModify k f rest := by
        simp [alistModify, h3]
      rw [hhd]
      show (if e.1 = k2 then some e.2 else alistFind k2 (alistModify k f rest)) = _
      show _ = (if e.1 = k2 then some e.2 else alistFind k2 rest)
      by_cases h4 : e.1 = k2
      · rw [if_pos h4, if_pos h4]
      · rw [if_neg h4, if_neg h4]
        exact alistFind_modify_other f h rest

/-- One entry of a defOrClobberCache list (a cached ValCtx): the referenced
instruction id, its context (none models the null context used for cached
global initialisers), and the dyn_cast<StoreInst> test. -/
structure CacheItem where
  inst : Nat
  ctx : Option Nat
  isStore : Bool
  deriving DecidableEq, Repr

/-- The caches and dependency indices touched by zapDefOrClobberCache and
dismissCallBlockedPBLoads, across all contexts. failedLFACache and
defOrClobberCache entries are keyed by (owner context, load id);
memWriterEffects by (writer context, store instruction) holding edges
(load, load context); callBlockedPBLoads by (call context, call instruction)
holding (load, load context) pairs; pendingPBQueue is the pendingPBChecks
solver queue fed by queuePendingPBUpdate. -/
structure DepState where
  failedLFACache : List ((Nat × Nat) × String)
  defOrClobberCache : List ((Nat × Nat) × List CacheItem)
  memWriterEffects : List ((Nat × Nat) × List (Nat × Nat))
  callBlockedPBLoads : List ((Nat × Nat) × List (Nat × Nat))
  pendingPBQueue : List (Nat × Nat)
  deriving DecidableEq, Repr

/-- IntegrationAttempt::removeMemWriterEffect in writer context wctx: drop
the (load, load context) pair from memWriterEffects of the store. -/
def removeMemWriterEffect (wctx inst : Nat) (edge : Nat × Nat) (s : DepState) :
    DepState :=
  { s with
      memWriterEffects := alistModify (wctx, inst)
        (fun es => es.filter (fun e => e ≠ edge)) s.memWriterEffects }

/-- The body of the unregistration loop of zapDefOrClobberCache: entries with
a null context are skipped, store entries are unlinked via
removeMemWriterEffect in their context, everything else is ignored. -/
def zapStep (li c : Nat) (st : DepState) (item : CacheItem) : DepState :=
  match item.ctx with
  | none => st
  | some wctx =>
    if item.isStore then removeMemWriterEffect wctx item.inst (li, c) st else st

/-- IntegrationAttempt::zapDefOrClobberCache for load li in context c: erase
the negative failedLFACache entry; when a positive defOrClobberCache entry
exists, run the unregistration loop over its items and erase it. Nothing else
is modified. -/
def zapDefOrClobberCache (c li : Nat) (s : DepState) : DepState :=
  let s1 := { s with failedLFACache := alistErase (c, li) s.failedLFACache }
  match alistFind (c, li) s1.defOrClobberCache with
  | none => s1
  | some items =>
    let s2 := items.foldl (zapStep li c) s1
    { s2 with defOrClobberCache := alistErase (c, li) s2.defOrClobberCache }

/-- The body of the loop of dismissCallBlockedPBLoads: zap the recorded load's
cache in its own context, then queue it on pendingPBChecks. -/
def dismissStep (st : DepState) (e : Nat × Nat) : DepState :=
  let st1 := zapDefOrClobberCache e.2 e.1 st
  { st1 with pendingPBQueue := st1.pendingPBQueue ++ [e] }

/-- IntegrationAttempt::dismissCallBlockedPBLoads for call ci in context c:
for every recorded (load, load context) pair run the zap-and-queue body, then
erase the callBlockedPBLoads entry. -/
def dismissCallBlockedPBLoads (c ci : Nat) (s : DepState) : DepState :=
  match alistFind (c, ci) s.callBlockedPBLoads with
  | none => s
  | some loads =>
    let s2 := loads.foldl dismissStep s
    { s2 with callBlockedPBLoads := alistErase (c, ci) s2.callBlockedPBLoads }

theorem zapStep_frame (li c : Nat) (st : DepState) (item : CacheItem) :
    (zapStep li c st item).failedLFACache = st.failedLFACache ∧
    (zapStep li c st item).defOrClobberCache = st.defOrClobberCache ∧
    (zapStep li c st item).callBlockedPBLoads = st.callBlockedPBLoads ∧
    (zapStep li c st item).pendingPBQueue = st.pendingPBQueue := by
  unfold zapStep
  cases item.ctx with
  | none => exact ⟨rfl, rfl, rfl, rfl⟩
  | some wctx =>
    by_cases h : item.isStore = true <;>
      simp [h, removeMemWriterEffect]

theorem zapFold_frame (li c : Nat) :
    ∀ (items : List CacheItem) (st : DepState),
    (items.foldl (zapStep li c) st).failedLFACache = st.failedLFACache ∧
    (items.foldl (zapStep li c) st).defOrClobberCache = st.defOrClobberCache ∧
    (items.foldl (zapStep li c) st).callBlockedPBLoads = st.callBlockedPBLoads ∧
    (items.foldl (zapStep li c) st).pendingPBQueue = st.pendingPBQueue
  | [], _ => ⟨rfl, rfl, rfl, rfl⟩
  | item :: rest, st => by
    have h1 := zapStep_frame li c st item
    have h2 := zapFold_frame li c rest (zapStep li c st item)
    simp only [List.foldl_cons]
    exact ⟨h2.1.trans h1.1, h2.2.1.trans h1.2.1, h2.2.2.1.trans h1.2.2.1,
      h2.2.2.2.trans h1.2.2.2⟩

/-- Absence of a reverse dependency edge for a given memory-writer key. -/
def noEdge (key : Nat × Nat) (edge : Nat × Nat) (s : DepState) : Prop :=
  ∀ es, alistFind key s.memWriterEffects = some es → edge ∉ es

theorem removeMemWriterEffect_noEdge (wctx inst : Nat) (edge : Nat × Nat)
    (s : DepState) : noEdge (wctx, inst) edge (removeMemWriterEffect wctx inst edge s) := by
  intro es hes
  rw [show (removeMemWriterEffect wctx inst edge s).memWriterEffects =
    alistModify (wctx, inst) (fun l => l.filter (fun e => e ≠ edge))
      s.memWriterEffects from rfl] at hes
  rw [alistFind_modify_self] at hes
  cases hfind : alistFind (wctx, inst) s.memWriterEffects with
  | none => rw [hfind] at hes; exact absurd hes (by simp)
  | some es0 =>
    rw [hfind] at hes
    have : es = es0.filter (fun e => e ≠ edge) := by
      simpa using hes.symm
    subst this
    intro hmem
    have := (List.mem_filter.mp hmem).2
    simp at this

theorem zapStep_preserves_noEdge {key edge : Nat × Nat} {li c : Nat}
    {st : DepState} (h : noEdge key edge st) (item : CacheItem)
    (hedge : edge = (li, c)) : noEdge key edge (zapStep li c st item) := by
  cases hctx : item.ctx with
  | none =>
    rw [show zapStep li c st item = st from by simp [zapStep, hctx]]
    exact h
  | some wctx =>
    by_cases hs : item.isStore = true
    · rw [show zapStep li c st item =
        removeMemWriterEffect wctx item.inst (li, c) st from by
          simp [zapStep, hctx, hs]]
      by_cases hk : key = (wctx, item.inst)
      · subst hk
        subst hedge
        exact removeMemWriterEffect_noEdge wctx item.inst (li, c) st
      · intro es hes
        rw [show (removeMemWriterEffect wctx item.inst (li, c) st).memWriterEffects =
          alistModify (wctx, item.inst) (fun l => l.filter (fun e => e ≠ (li, c)))
            st.memWriterEffects from rfl] at hes
        rw [alistFind_modify_other _ hk] at hes
        exact h es hes
    · rw [show zapStep li c st item = st from by simp [zapStep, hctx, hs]]
      exact h

theorem zapFold_preserves_noEdge {key edge : Nat × Nat} {li c : Nat}
    (hedge : edge = (li, c)) :
    ∀ (items : List CacheItem) (st : DepState), noEdge key edge st →
    noEdge key edge (items.foldl (zapStep li c) st)
  | [], _, h => h
  | item :: rest, st, h => by
    simp only [List.foldl_cons]
    exact zapFold_preserves_noEdge hedge rest _
      (zapStep_preserves_noEdge h item hedge)

theorem zapFold_unlinks {li c wctx : Nat} :
    ∀ (items : List CacheItem) (st : DepState) (item : CacheItem),
    item ∈ items → item.isStore = true → item.ctx = some wctx →
    noEdge (wctx, item.inst) (li, c) (items.foldl (zapStep li c) st)
  | [], _, _, hmem, _, _ => absurd hmem (List.not_mem_nil _)
  | hd :: rest, st, item, hmem, hs, hctx => by
    simp only [List.foldl_cons]
    rcases List.mem_cons.mp hmem with heq | hmem2
    · subst heq
      apply zapFold_preserves_noEdge rfl rest
      rw [show zapStep li c st item =
        removeMemWriterEffect wctx item.inst (li, c) st from by
          simp [zapStep, hctx, hs]]
      exact removeMemWriterEffect_noEdge wctx item.inst (li, c) st
    · exact zapFold_unlinks rest (zapStep li c st hd) item hmem2 hs hctx

theorem zap_failedLFA_find (c li : Nat) (s : DepState) :
    alistFind (c, li) (zapDefOrClobberCache c li s).failedLFACache = none := by
  unfold zapDefOrClobberCache
  cases hfind : alistFind (c, li) s.defOrClobberCache with
  | none =>
    simp only [hfind]
    exact alistFind_erase_self (c, li) s.failedLFACache
  | some items =>
    simp only [hfind]
    rw [show ({ items.foldl (zapStep li c)
        { s with failedLFACache := alistErase (c, li) s.failedLFACache } with
        defOrClobberCache := alistErase (c, li) (items.foldl (zapStep li c)
          { s with failedLFACache := alistErase (c, li) s.failedLFACache }).defOrClobberCache
        } : DepState).failedLFACache =
      (items.foldl (zapStep li c)
        { s with failedLFACache := alistErase (c, li) s.failedLFACache }).failedLFACache
      from rfl]
    rw [(zapFold_frame li c items _).1]
    exact alistFind_erase_self (c, li) s.failedLFACache

theorem zap_defOrClobber_find (c li : Nat) (s : DepState) :
    alistFind (c, li) (zapDefOrClobberCache c li s).defOrClobberCache = none := by
  unfold zapDefOrClobberCache
  cases hfind : alistFind (c, li) s.defOrClobberCache with
  | none =>
    simp only [hfind]
  | some items =>
    simp only [hfind]
    exact alistFind_erase_self (c, li) _

theorem zap_callBlocked_frame (c li : Nat) (s : DepState) :
    (zapDefOrClobberCache c li s).callBlockedPBLoads = s.callBlockedPBLoads := by
  unfold zapDefOrClobberCache
  cases hfind : alistFind (c, li) s.defOrClobberCache with
  | none => simp [hfind]
  | some items =>
    simp only [hfind]
    exact (zapFold_frame li c items _).2.2.1

theorem zap_queue_frame (c li : Nat) (s : DepState) :
    (zapDefOrClobberCache c li s).pendingPBQueue = s.pendingPBQueue := by
  unfold zapDefOrClobberCache
  cases hfind : alistFind (c, li) s.defOrClobberCache with
  | none => simp [hfind]
  | some items =>
    simp only [hfind]
    exact (zapFold_frame li c items _).2.2.2

theorem zap_unlinks_stores (c li : Nat) (s : DepState) (items : List CacheItem)
    (hfind : alistFind (c, li) s.defOrClobberCache = some items)
    (item : CacheItem) (hmem : item ∈ items) (hs : item.isStore = true)
    (wctx : Nat) (hctx : item.ctx = some wctx) :
    noEdge (wctx, item.inst) (li, c) (zapDefOrClobberCache c li s) := by
  unfold zapDefOrClobberCache
  simp only [hfind]
  intro es hes
  exact zapFold_unlinks items _ item hmem hs hctx es hes

theorem dismissFold_queue : ∀ (loads : List (Nat × Nat)) (st : DepState),
    (loads.foldl dismissStep st).pendingPBQueue = st.pendingPBQueue ++ loads
  | [], st => by simp
  | e :: rest, st => by
    have h1 : (dismissStep st e).pendingPBQueue = st.pendingPBQueue ++ [e] := by
      rw [show (dismissStep st e).pendingPBQueue =
        (zapDefOrClobberCache e.2 e.1 st).pendingPBQueue ++ [e] from rfl]
      rw [zap_queue_frame]
    simp only [List.foldl_cons]
    rw [dismissFold_queue rest (dismissStep st e), h1]
    simp

theorem dismissFold_callBlocked : ∀ (loads : List (Nat × Nat)) (st : DepState),
    (loads.foldl dismissStep st).callBlockedPBLoads = st.callBlockedPBLoads
  | [], _ => rfl
  | e :: rest, st => by
    have h1 : (dismissStep st e).callBlockedPBLoads = st.callBlockedPBLoads := by
      rw [show (dismissStep st e).callBlockedPBLoads =
        (zapDefOrClobberCache e.2 e.1 st).callBlockedPBLoads from rfl]
      rw [zap_callBlocked_frame]
    simp only [List.foldl_cons]
    exact (dismissFold_callBlocked rest (dismissStep st e)).trans h1

/-- Counterexample to C6 as stated: a load whose positive cache entry lists a
clobbering call (with a registered callBlockedPBLoads reverse edge) is zapped,
yet the call's reverse edge survives untouched and nothing is enqueued on the
solver queue — zapDefOrClobberCache unlinks only store edges and never
enqueues; its callers do the enqueueing. -/
theorem C6_counterexample :
    alistFind (0, 5) (DepState.mk [((0, 5), "Reached main")]
      [((0, 5), [⟨7, some 1, false⟩])] [] [((1, 7), [(5, 0)])]
      []).defOrClobberCache = some [⟨7, some 1, false⟩] ∧
    (zapDefOrClobberCache 0 5 (DepState.mk [((0, 5), "Reached main")]
      [((0, 5), [⟨7, some 1, false⟩])] [] [((1, 7), [(5, 0)])]
      [])).callBlockedPBLoads = [((1, 7), [(5, 0)])] ∧
    (zapDefOrClobberCache 0 5 (DepState.mk [((0, 5), "Reached main")]
      [((0, 5), [⟨7, some 1, false⟩])] [] [((1, 7), [(5, 0)])]
      [])).pendingPBQueue = [] := by
  refine ⟨by decide, by decide, by decide⟩

/-- C6 (corrected): zapDefOrClobberCache(L) erases both the negative
failedLFACache entry and the positive defOrClobberCache entry for L, and
unlinks the store memWriterEffects reverse edge of every store listed in the
cached entry; it leaves callBlockedPBLoads untouched and enqueues nothing
itself. The enqueue of (L, C) together with the zap is performed by the
invalidation driver dismissCallBlockedPBLoads, which processes every recorded
(load, context), appends each to the pending solver queue, and erases its own
callBlockedPBLoads entry. -/
theorem C6_zap_cache_invalidation (s : DepState) (c li : Nat) :
    (alistFind (c, li) (zapDefOrClobberCache c li s).failedLFACache = none) ∧
    (alistFind (c, li) (zapDefOrClobberCache c li s).defOrClobberCache = none) ∧
    ((zapDefOrClobberCache c li s).callBlockedPBLoads = s.callBlockedPBLoads) ∧
    ((zapDefOrClobberCache c li s).pendingPBQueue = s.pendingPBQueue) ∧
    (∀ items, alistFind (c, li) s.defOrClobberCache = some items →
      ∀ item ∈ items, item.isStore = true → ∀ wctx, item.ctx = some wctx →
      noEdge (wctx, item.inst) (li, c) (zapDefOrClobberCache c li s)) ∧
    (∀ ci loads, alistFind (c, ci) s.callBlockedPBLoads = some loads →
      (∀ e ∈ loads, e ∈ (dismissCallBlockedPBLoads c ci s).pendingPBQueue) ∧
      alistFind (c, ci) (dismissCallBlockedPBLoads c ci s).callBlockedPBLoads =
        none) := by
  refine ⟨zap_failedLFA_find c li s, zap_defOrClobber_find c li s,
    zap_callBlocked_frame c li s, zap_queue_frame c li s, ?_, ?_⟩
  · intro items hfind item hmem hs wctx hctx
    exact zap_unlinks_stores c li s items hfind item hmem hs wctx hctx
  · intro ci loads hfind
    constructor
    · intro e he
      unfold dismissCallBlockedPBLoads
      simp only [hfind]
      rw [show ({ loads.foldl dismissStep s with
          callBlockedPBLoads := alistErase (c, ci)
            (loads.foldl dismissStep s).callBlockedPBLoads } : DepState).pendingPBQueue =
        (loads.foldl dismissStep s).pendingPBQueue from rfl]
      rw [dismissFold_queue]
      exact List.mem_append_right _ he
    · unfold dismissCallBlockedPBLoads
      simp only [hfind]
      exact alistFind_erase_self (c, ci) _

/-- Witness for C6 at a concrete input: zapping a load whose cache lists one
store unlinks the store's reverse edge; dismissing a blocked call enqueues the
recorded (load, context). -/
theorem C6_witness :
    noEdge (1, 7) (5, 0) (zapDefOrClobberCache 0 5 (DepState.mk []
      [((0, 5), [⟨7, some 1, true⟩])] [((1, 7), [(5, 0), (9, 9)])] [] [])) ∧
    (5, 0) ∈ (dismissCallBlockedPBLoads 2 8 (DepState.mk []
      [] [] [((2, 8), [(5, 0)])] [])).pendingPBQueue := by
  constructor
  · exact (C6_zap_cache_invalidation (DepState.mk []
      [((0, 5), [⟨7, some 1, true⟩])] [((1, 7), [(5, 0), (9, 9)])] [] []) 0 5).2.2.2.2.1
      [⟨7, some 1, true⟩] rfl ⟨7, some 1, true⟩ (List.mem_singleton_self _) rfl 1 rfl
  · exact ((C6_zap_cache_invalidation (DepState.mk []
      [] [] [((2, 8), [(5, 0)])] []) 2 5).2.2.2.2.2 8 [(5, 0)] rfl).1 (5, 0)
      (List.mem_singleton_self _)

/-- LoadForwardAttempt, restricted to the state touched by addStartOfScopePB
and by the caching logic of tryForwardLoadPB. -/
structure LoadForwardAttempt where
  OverdefReasons : List String
  DefOrClobberInstructions : List ValCtx
  PB : PointerBase
  ReachedTop : Bool
  ReachedTopStr : String
  CompletelyExplored : Bool
  deriving DecidableEq, Repr

/-- LoadForwardAttempt::setPBOverdef: record the reason and overdefine PB. -/
def LoadForwardAttempt.setPBOverdef (lfa : LoadForwardAttempt)
    (reason : String) : LoadForwardAttempt :=
  { lfa with
      OverdefReasons := lfa.OverdefReasons ++ [reason]
      PB := PointerBase.getOverdef }

/-- LoadForwardAttempt::addPBDefn: merge the new definition into PB and record
a Fan-in reason when the merge itself introduced overdef. -/
def LoadForwardAttempt.addPBDefn (lfa : LoadForwardAttempt)
    (NewPB : PointerBase) : LoadForwardAttempt :=
  let WasOverdef := lfa.PB.Overdef
  let merged := lfa.PB.merge NewPB
  { lfa with
      PB := merged
      OverdefReasons :=
        if merged.Overdef = true ∧ WasOverdef = false ∧ NewPB.Overdef = false
        then lfa.OverdefReasons ++ ["Fan-in"]
        else lfa.OverdefReasons }

/-- LoadForwardAttempt::reachedTop: overdefine with the reason and mark. -/
def LoadForwardAttempt.reachedTop (lfa : LoadForwardAttempt) (s : String) :
    LoadForwardAttempt :=
  { lfa.setPBOverdef s with
      ReachedTop := true
      ReachedTopStr := s }

/-- Subtraction of uint64 values (GVCSize - ReadOffset in addStartOfScopePB),
wrapping modulo 2^64. -/
def sub64 (a b : Nat) : Nat :=
  (a % (2 ^ 64) + ((2 ^ 64) - b % (2 ^ 64))) % (2 ^ 64)

/-- The inputs consulted by IntegrationAttempt::addStartOfScopePB: whether the
symbolic expression could be built (canBuildSymExpr); whether the base ValCtx
is a GlobalVariable with hasDefinitiveInitializer; the uint64 byte size of the
initializer, the symbolic read offset and the loaded byte count; and the
result of extractAggregateMemberAt (none models VCNull). -/
structure ScopeQuery where
  canBuildSymExpr : Bool
  baseIsGlobalVariable : Bool
  hasDefinitiveInitializer : Bool
  GVCSize : Nat
  ReadOffset : Nat
  LoadSize : Nat
  extracted : Option ValCtx
  deriving DecidableEq, Repr

/-- IntegrationAttempt::addStartOfScopePB. getPB abstracts PointerBase::get on
the extracted member constant. When the pointer is symbolisable, the base is a
global with a definitive initializer, FirstNotDef = min(GVCSize - ReadOffset,
LoadSize) equals LoadSize, and extraction succeeds, the member is pushed on
DefOrClobberInstructions and merged through addPBDefn; every other path falls
through to reachedTop with reason Reached main. -/
def addStartOfScopePB (getPB : ValCtx → PointerBase) (q : ScopeQuery)
    (lfa : LoadForwardAttempt) : LoadForwardAttempt :=
  if q.canBuildSymExpr = true ∧ q.baseIsGlobalVariable = true ∧
      q.hasDefinitiveInitializer = true ∧
      min (sub64 q.GVCSize q.ReadOffset) q.LoadSize = q.LoadSize then
    match q.extracted with
    | some f =>
      ({ lfa with
          DefOrClobberInstructions :=
            lfa.DefOrClobberInstructions ++ [f] }).addPBDefn (getPB f)
    | none => lfa.reachedTop "Reached main"
  else lfa.reachedTop "Reached main"

/-- Modelled from the spec: the backward memory walk itself (tryResolveLoad
and BackwardIAWalker) is not among the sources; per spec section 4.2 step 5,
a walk that reaches the function entry with bytes still uncovered consults the
initializer through addStartOfScopePB on the attempt state built so far. This
definition is that connection. -/
def walkReachedStartOfScope (getPB : ValCtx → PointerBase) (q : ScopeQuery)
    (pre : LoadForwardAttempt) : LoadForwardAttempt :=
  addStartOfScopePB getPB q pre

/-- The fresh LoadForwardAttempt constructed at the top of tryForwardLoadPB:
default PB, nothing explored, CompletelyExplored initialised to not finalise. -/
def freshLFA (finalise : Bool) : LoadForwardAttempt :=
  ⟨[], [], ⟨ValSetType.Unknown, [], false⟩, false, "", !finalise⟩

/-- The per-load caches consulted by tryForwardLoadPB: the negative
failedLFACache (load id → reason) and the set of loads holding a positive
defOrClobberCache entry. -/
structure LFCaches where
  failedLFACache : List (Nat × String)
  defOrClobberCached : List Nat
  deriving DecidableEq, Repr

/-- Lookup in the negative cache (DenseMap<LoadInst*, std::string>::find). -/
def lfaFindFail (li : Nat) : List (Nat × String) → Option String
  | [] => none
  | e :: rest => if e.1 = li then some e.2 else lfaFindFail li rest

/-- The caching skeleton of IntegrationAttempt::tryForwardLoadPB. A negative
cache hit replays the cached failure through reachedTop on a fresh attempt
and leaves the caches alone; with no cache entry at all the backward walk
result (walk, produced by tryResolveLoad, outside these sources) is used: a
completely explored walk that reached top stores its reason in the negative
cache, a completely explored walk that did not stores the positive entry, an
incomplete exploration caches nothing; a positive hit replays the cached defs
against current alias facts (replay, abstracted). The returned Option models
the returned bool with NewPB: none when PB has no values and is not overdef. -/
def tryForwardLoadPB (st : LFCaches) (li : Nat) (finalise : Bool)
    (walk replay : LoadForwardAttempt) :
    LFCaches × LoadForwardAttempt × Option PointerBase :=
  let ret : LoadForwardAttempt → Option PointerBase := fun a =>
    if a.PB.Values = [] ∧ a.PB.Overdef = false then none else some a.PB
  match lfaFindFail li st.failedLFACache with
  | some reason =>
    let a := (freshLFA finalise).reachedTop reason
    (st, a, ret a)
  | none =>
    if li ∈ st.defOrClobberCached then
      (st, replay, ret replay)
    else
      let st2 :=
        if walk.CompletelyExplored = true then
          if walk.ReachedTop = true then
            { st with failedLFACache :=
                st.failedLFACache ++ [(li, walk.ReachedTopStr)] }
          else { st with defOrClobberCached := st.defOrClobberCached ++ [li] }
        else st
      (st2, walk, ret walk)

theorem lfaFindFail_append_self (li : Nat) (s : String) :
    ∀ m : List (Nat × String), lfaFindFail li m = none →
    lfaFindFail li (m ++ [(li, s)]) = some s
  | [], _ => by simp [lfaFindFail]
  | e :: rest, h => by
    by_cases he : e.1 = li
    · rw [lfaFindFail, if_pos he] at h
      exact absurd h (by simp)
    · rw [lfaFindFail, if_neg he] at h
      rw [List.cons_append, lfaFindFail, if_neg he]
      exact lfaFindFail_append_self li s rest h

/-- C7 (confirmed): when the backward walk reaches the function entry with
bytes uncovered, a global-variable base with a definitive initializer fully
covering the loaded bytes at the symbolic offset has its extracted member
recorded as a definition and merged into the result; in every other case the
attempt is overdefined through reachedTop with reason Reached main; and for a
completely explored walk that reached top, tryForwardLoadPB caches the reason
in failedLFACache so a later query for the same load replays the cached
failure as overdef without touching the caches. -/
theorem C7_start_of_scope_and_failure_cache (getPB : ValCtx → PointerBase)
    (q : ScopeQuery) (lfa : LoadForwardAttempt) :
    (∀ f, q.canBuildSymExpr = true → q.baseIsGlobalVariable = true →
      q.hasDefinitiveInitializer = true →
      min (sub64 q.GVCSize q.ReadOffset) q.LoadSize = q.LoadSize →
      q.extracted = some f →
      (walkReachedStartOfScope getPB q lfa).DefOrClobberInstructions =
        lfa.DefOrClobberInstructions ++ [f] ∧
      (walkReachedStartOfScope getPB q lfa).PB = lfa.PB.merge (getPB f) ∧
      (walkReachedStartOfScope getPB q lfa).ReachedTop = lfa.ReachedTop) ∧
    ((¬(q.canBuildSymExpr = true ∧ q.baseIsGlobalVariable = true ∧
        q.hasDefinitiveInitializer = true ∧
        min (sub64 q.GVCSize q.ReadOffset) q.LoadSize = q.LoadSize) ∨
      q.extracted = none) →
      walkReachedStartOfScope getPB q lfa = lfa.reachedTop "Reached main" ∧
      (walkReachedStartOfScope getPB q lfa).PB = PointerBase.getOverdef ∧
      (walkReachedStartOfScope getPB q lfa).ReachedTop = true ∧
      (walkReachedStartOfScope getPB q lfa).ReachedTopStr = "Reached main" ∧
      "Reached main" ∈ (walkReachedStartOfScope getPB q lfa).OverdefReasons) ∧
    (∀ (st : LFCaches) (li : Nat) (finalise : Bool)
      (walk replay : LoadForwardAttempt),
      lfaFindFail li st.failedLFACache = none → li ∉ st.defOrClobberCached →
      walk.CompletelyExplored = true → walk.ReachedTop = true →
      lfaFindFail li
        (tryForwardLoadPB st li finalise walk replay).1.failedLFACache =
        some walk.ReachedTopStr) ∧
    (∀ (st : LFCaches) (li : Nat) (finalise : Bool)
      (walk replay : LoadForwardAttempt) (reason : String),
      lfaFindFail li st.failedLFACache = some reason →
      (tryForwardLoadPB st li finalise walk replay).1 = st ∧
      (tryForwardLoadPB st li finalise walk replay).2.2 =
        some PointerBase.getOverdef ∧
      (tryForwardLoadPB st li finalise walk replay).2.1.PB =
        PointerBase.getOverdef) := by
  refine ⟨?_, ?_, ?_, ?_⟩
  · intro f h1 h2 h3 h4 h5
    have hcond : q.canBuildSymExpr = true ∧ q.baseIsGlobalVariable = true ∧
        q.hasDefinitiveInitializer = true ∧
        min (sub64 q.GVCSize q.ReadOffset) q.LoadSize = q.LoadSize :=
      ⟨h1, h2, h3, h4⟩
    have hw : walkReachedStartOfScope getPB q lfa =
        ({ lfa with
            DefOrClobberInstructions :=
              lfa.DefOrClobberInstructions ++ [f] }).addPBDefn (getPB f) := by
      simp only [walkReachedStartOfScope, addStartOfScopePB, if_pos hcond, h5]
    rw [hw]
    exact ⟨rfl, rfl, rfl⟩
  · intro hfail
    have hw : walkReachedStartOfScope getPB q lfa =
        lfa.reachedTop "Reached main" := by
      rcases hfail with hfail | hfail
      · simp only [walkReachedStartOfScope, addStartOfScopePB, if_neg hfail]
      · by_cases hcond : q.canBuildSymExpr = true ∧ q.baseIsGlobalVariable = true ∧
          q.hasDefinitiveInitializer = true ∧
          min (sub64 q.GVCSize q.ReadOffset) q.LoadSize = q.LoadSize
        · simp only [walkReachedStartOfScope, addStartOfScopePB, if_pos hcond, hfail]
        · simp only [walkReachedStartOfScope, addStartOfScopePB, if_neg hcond]
    rw [hw]
    refine ⟨rfl, rfl, rfl, rfl, ?_⟩
    simp [LoadForwardAttempt.reachedTop, LoadForwardAttempt.setPBOverdef]
  · intro st li finalise walk replay hnofail hnopos hcompl htop
    simp only [tryForwardLoadPB, hnofail]
    rw [if_neg hnopos, if_pos hcompl, if_pos htop]
    exact lfaFindFail_append_self li walk.ReachedTopStr st.failedLFACache hnofail
  · intro st li finalise walk replay reason hfail
    have hret : tryForwardLoadPB st li finalise walk replay =
        (st, (freshLFA finalise).reachedTop reason,
          some ((freshLFA finalise).reachedTop reason).PB) := by
      simp only [tryForwardLoadPB, hfail]
      rw [if_neg (by simp [LoadForwardAttempt.reachedTop,
        LoadForwardAttempt.setPBOverdef, PointerBase.getOverdef])]
    rw [hret]
    exact ⟨rfl, rfl, rfl⟩

/-- Witness for C7 at concrete inputs: a fully covering global initializer
member becomes the definition set of the walk; an uncovered entry reaches top
with Reached main; the cached failure replays as overdef. -/
theorem C7_witness :
    (walkReachedStartOfScope (fun c => PointerBase.getTyped c ValSetType.Scalar)
      ⟨true, true, true, 8, 0, 4, some ⟨3, 0, 0, 0⟩⟩
      (freshLFA false)).PB =
      (freshLFA false).PB.merge
        (PointerBase.getTyped ⟨3, 0, 0, 0⟩ ValSetType.Scalar) ∧
    (walkReachedStartOfScope (fun c => PointerBase.getTyped c ValSetType.Scalar)
      ⟨true, true, true, 2, 0, 4, none⟩ (freshLFA false)).ReachedTopStr =
      "Reached main" ∧
    (tryForwardLoadPB ⟨[(5, "Reached main")], []⟩ 5 true (freshLFA true)
      (freshLFA true)).2.2 = some PointerBase.getOverdef := by
  refine ⟨?_, ?_, ?_⟩
  · exact ((C7_start_of_scope_and_failure_cache
      (fun c => PointerBase.getTyped c ValSetType.Scalar)
      ⟨true, true, true, 8, 0, 4, some ⟨3, 0, 0, 0⟩⟩ (freshLFA false)).1
      ⟨3, 0, 0, 0⟩ rfl rfl rfl (by decide) rfl).2.1
  · exact ((C7_start_of_scope_and_failure_cache
      (fun c => PointerBase.getTyped c ValSetType.Scalar)
      ⟨true, true, true, 2, 0, 4, none⟩ (freshLFA false)).2.1
      (Or.inr rfl)).2.2.2.1
  · exact ((C7_start_of_scope_and_failure_cache
      (fun c => PointerBase.getTyped c ValSetType.Scalar)
      ⟨true, true, true, 2, 0, 4, none⟩ (freshLFA false)).2.2.2
      ⟨[(5, "Reached main")], []⟩ 5 true (freshLFA true) (freshLFA true)
      "Reached main" rfl).2.1

/-- The lattice order on PointerBase facts: overdefined on top, empty
non-overdefined value sets at the bottom with the uninitialised fact, and
value sets of matching type ordered by inclusion. -/
def pbLECore (a b : PointerBase) : Prop :=
  b.Overdef = true ∨
  (a.Overdef = false ∧ a.Values = []) ∨
  (a.Overdef = false ∧ b.Overdef = false ∧ a.Ty = b.Ty ∧ a.Values ⊆ b.Values)

/-- The lattice order on optional facts: an absent fact is below everything. -/
def pbLE : Option PointerBase → Option PointerBase → Prop
  | none, _ => True
  | some _, none => False
  | some a, some b => pbLECore a b

theorem pbLECore_refl (a : PointerBase) : pbLECore a a := by
  cases hod : a.Overdef
  · exact Or.inr (Or.inr ⟨hod, hod, rfl, fun x hx => hx⟩)
  · exact Or.inl hod

theorem pbLE_refl (a : Option PointerBase) : pbLE a a := by
  cases a with
  | none => trivial
  | some pb => exact pbLECore_refl pb

theorem pbLECore_trans {a b c : PointerBase} (h1 : pbLECore a b)
    (h2 : pbLECore b c) : pbLECore a c := by
  rcases h2 with h2 | h2 | h2
  · exact Or.inl h2
  · rcases h1 with h1 | h1 | h1
    · rw [h1] at h2
      exact absurd h2.1 (by simp)
    · exact Or.inr (Or.inl h1)
    · have hae : a.Values = [] := by
        have hsub := h1.2.2.2
        rw [h2.2] at hsub
        exact List.eq_nil_iff_forall_not_mem.mpr
          (fun x hx => absurd (hsub hx) (List.not_mem_nil x))
      exact Or.inr (Or.inl ⟨h1.1, hae⟩)
  · rcases h1 with h1 | h1 | h1
    · rw [h1] at h2
      exact absurd h2.1 (by simp)
    · exact Or.inr (Or.inl h1)
    · exact Or.inr (Or.inr ⟨h1.1, h2.2.1, h1.2.2.1.trans h2.2.2.1,
        fun x hx => h2.2.2.2 (h1.2.2.2 hx)⟩)

theorem pbLE_trans {a b c : Option PointerBase} (h1 : pbLE a b) (h2 : pbLE b c) :
    pbLE a c := by
  cases a with
  | none => trivial
  | some pa =>
    cases b with
    | none => exact absurd h1 (by simp [pbLE])
    | some pb =>
      cases c with
      | none => exact absurd h2 (by simp [pbLE])
      | some pc => exact pbLECore_trans h1 h2

/-- Well-formedness of every fact the solver stores: duplicate-free value
list, within the PBMAX cap, cleared when overdefined, and non-empty when not
overdefined (updateBasePointer never stores an uninitialised fact). -/
def WFfact (pb : PointerBase) : Prop :=
  pb.Values.Nodup ∧ pb.Values.length ≤ PBMAX ∧
  (pb.Overdef = true → pb.Values = []) ∧ (pb.Overdef = false → pb.Values ≠ [])

/-- Well-formedness of a merge accumulator (the default-constructed NewPB,
which starts empty without being overdefined). -/
def WFacc (pb : PointerBase) : Prop :=
  pb.Values.Nodup ∧ pb.Values.length ≤ PBMAX ∧
  (pb.Overdef = true → pb.Values = [])

theorem mem_dedupAppend : ∀ (vcs d : List ValCtx) (x : ValCtx),
    x ∈ dedupAppend d vcs ↔ x ∈ d ∨ x ∈ vcs
  | [], d, x => by simp [dedupAppend]
  | vc :: rest, d, x => by
    by_cases hmem : vc ∈ d
    · rw [dedupAppend, if_pos hmem, mem_dedupAppend rest d x]
      constructor
      · rintro (h | h)
        · exact Or.inl h
        · exact Or.inr (List.mem_cons_of_mem _ h)
      · rintro (h | h)
        · exact Or.inl h
        · rcases List.mem_cons.mp h with h | h
          · exact Or.inl (h ▸ hmem)
          · exact Or.inr h
    · rw [dedupAppend, if_neg hmem, mem_dedupAppend rest (d ++ [vc]) x]
      constructor
      · rintro (h | h)
        · rcases List.mem_append.mp h with h | h
          · exact Or.inl h
          · exact Or.inr (List.mem_cons.mpr (Or.inl (List.mem_singleton.mp h)))
        · exact Or.inr (List.mem_cons_of_mem _ h)
      · rintro (h | h)
        · exact Or.inl (List.mem_append.mpr (Or.inl h))
        · rcases List.mem_cons.mp h with h | h
          · exact Or.inl (List.mem_append.mpr (Or.inr (List.mem_singleton.mpr h)))
          · exact Or.inr h

theorem dedupAppend_nodup : ∀ (vcs d : List ValCtx), d.Nodup →
    (dedupAppend d vcs).Nodup
  | [], _, h => h
  | vc :: rest, d, h => by
    by_cases hmem : vc ∈ d
    · rw [dedupAppend, if_pos hmem]
      exact dedupAppend_nodup rest d h
    · rw [dedupAppend, if_neg hmem]
      exact dedupAppend_nodup rest (d ++ [vc]) (by simp [List.nodup_append, h, hmem])

theorem nodup_subset_length_le {u v : List ValCtx} (hu : u.Nodup) (hsub : u ⊆ v) :
    u.length ≤ v.length :=
  (List.subperm_of_subset hu hsub).length_le

theorem PointerBase.merge_cases (a b : PointerBase) :
    (b.Overdef = true ∧ a.merge b = a.setOverdef) ∨
    (b.Overdef = false ∧ (a.isInitialised = true ∧ b.Ty ≠ a.Ty) ∧
      a.merge b = a.setOverdef) ∨
    (b.Overdef = false ∧ ¬(a.isInitialised = true ∧ b.Ty ≠ a.Ty) ∧
      a.merge b = ({ a with Ty := b.Ty }).insertList b.Values) := by
  by_cases hbo : b.Overdef = true
  · exact Or.inl ⟨hbo, by simp [PointerBase.merge, hbo]⟩
  · have hbo2 : b.Overdef = false := by
      cases hb : b.Overdef
      · rfl
      · exact absurd hb hbo
    by_cases hcond : a.isInitialised = true ∧ b.Ty ≠ a.Ty
    · refine Or.inr (Or.inl ⟨hbo2, hcond, ?_⟩)
      rw [PointerBase.merge, if_neg (by simp [hbo2]), if_pos hcond]
    · refine Or.inr (Or.inr ⟨hbo2, hcond, ?_⟩)
      rw [PointerBase.merge, if_neg (by simp [hbo2]), if_neg hcond,
        PointerBase.mergeVals_eq_insertList]

theorem PointerBase.merge_union_char {a b : PointerBase} (hao : a.Overdef = false)
    (hnd : a.Values.Nodup) (hlen : a.Values.length ≤ PBMAX)
    (hbo : b.Overdef = false) (hcond : ¬(a.isInitialised = true ∧ b.Ty ≠ a.Ty)) :
    a.merge b =
      (if (dedupAppend a.Values b.Values).length ≤ PBMAX
       then ⟨b.Ty, dedupAppend a.Values b.Values, false⟩
       else ⟨b.Ty, [], true⟩) := by
  rcases PointerBase.merge_cases a b with ⟨h1, _⟩ | ⟨_, hc, _⟩ | ⟨_, _, heq⟩
  · exact absurd h1 (by simp [hbo])
  · exact absurd hc hcond
  · rw [heq]
    have hshape : ({ a with Ty := b.Ty } : PointerBase) = ⟨b.Ty, a.Values, false⟩ := by
      cases a
      simp_all
    rw [hshape]
    exact PointerBase.insertList_characterisation b.Ty b.Values a.Values hnd hlen

theorem PointerBase.merge_le {a : PointerBase} (b : PointerBase)
    (hnd : a.Values.Nodup) (hlen : a.Values.length ≤ PBMAX) :
    pbLECore a (a.merge b) := by
  rcases PointerBase.merge_cases a b with ⟨_, heq⟩ | ⟨_, _, heq⟩ | ⟨hbo, hcond, heq⟩
  · exact Or.inl (by rw [heq]; rfl)
  · exact Or.inl (by rw [heq]; rfl)
  · by_cases hao : a.Overdef = true
    · have hins : ({ a with Ty := b.Ty } : PointerBase).insertList b.Values =
          { a with Ty := b.Ty } :=
        @PointerBase.insertList_of_overdef { a with Ty := b.Ty } hao b.Values
      rw [heq, hins]
      exact Or.inl hao
    · have hao2 : a.Overdef = false := by
        cases h : a.Overdef
        · rfl
        · exact absurd h hao
      rw [PointerBase.merge_union_char hao2 hnd hlen hbo hcond]
      by_cases hcap : (dedupAppend a.Values b.Values).length ≤ PBMAX
      · rw [if_pos hcap]
        by_cases hae : a.Values = []
        · exact Or.inr (Or.inl ⟨hao2, hae⟩)
        · have hty : b.Ty = a.Ty := by
            by_cases h : b.Ty = a.Ty
            · exact h
            · refine absurd ⟨?_, h⟩ hcond
              simp only [PointerBase.isInitialised, hao2, Bool.false_or,
                decide_eq_true_eq]
              exact List.length_pos.mpr hae
          exact Or.inr (Or.inr ⟨hao2, rfl, hty.symm,
            fun x hx => (mem_dedupAppend b.Values a.Values x).mpr (Or.inl hx)⟩)
      · rw [if_neg hcap]
        exact Or.inl rfl

theorem PointerBase.merge_WFacc {a : PointerBase} (ha : WFacc a)
    (b : PointerBase) : WFacc (a.merge b) := by
  rcases PointerBase.merge_cases a b with ⟨_, heq⟩ | ⟨_, _, heq⟩ | ⟨hbo, hcond, heq⟩
  · rw [heq]
    exact ⟨List.nodup_nil, by simp [PointerBase.setOverdef, PBMAX], fun _ => rfl⟩
  · rw [heq]
    exact ⟨List.nodup_nil, by simp [PointerBase.setOverdef, PBMAX], fun _ => rfl⟩
  · by_cases hao : a.Overdef = true
    · have hins : ({ a with Ty := b.Ty } : PointerBase).insertList b.Values =
          { a with Ty := b.Ty } :=
        @PointerBase.insertList_of_overdef { a with Ty := b.Ty } hao b.Values
      rw [heq, hins]
      have hae : a.Values = [] := ha.2.2 hao
      exact ⟨by simp [hae], by simp [hae, PBMAX], fun _ => hae⟩
    · have hao2 : a.Overdef = false := by
        cases h : a.Overdef
        · rfl
        · exact absurd h hao
      rw [PointerBase.merge_union_char hao2 ha.1 ha.2.1 hbo hcond]
      by_cases hcap : (dedupAppend a.Values b.Values).length ≤ PBMAX
      · rw [if_pos hcap]
        exact ⟨dedupAppend_nodup b.Values a.Values ha.1, hcap,
          fun h => absurd h (by simp)⟩
      · rw [if_neg hcap]
        exact ⟨List.nodup_nil, by simp [PBMAX], fun _ => rfl⟩

theorem PointerBase.merge_nonempty {a b : PointerBase} (ha : WFacc a)
    (hbne : b.Values ≠ [] ∨ b.Overdef = true)
    (hro : (a.merge b).Overdef = false) : (a.merge b).Values ≠ [] := by
  rcases PointerBase.merge_cases a b with ⟨_, heq⟩ | ⟨_, _, heq⟩ | ⟨hbo, hcond, heq⟩
  · rw [heq] at hro
    simp [PointerBase.setOverdef] at hro
  · rw [heq] at hro
    simp [PointerBase.setOverdef] at hro
  · have hbne2 : b.Values ≠ [] := by
      rcases hbne with h | h
      · exact h
      · exact absurd h (by simp [hbo])
    by_cases hao : a.Overdef = true
    · have hins : ({ a with Ty := b.Ty } : PointerBase).insertList b.Values =
          { a with Ty := b.Ty } :=
        @PointerBase.insertList_of_overdef { a with Ty := b.Ty } hao b.Values
      rw [heq, hins] at hro
      have hao2 : a.Overdef = false := hro
      exact absurd hao (by simp [hao2])
    · have hao2 : a.Overdef = false := by
        cases h : a.Overdef
        · rfl
        · exact absurd h hao
      rw [PointerBase.merge_union_char hao2 ha.1 ha.2.1 hbo hcond] at hro ⊢
      by_cases hcap : (dedupAppend a.Values b.Values).length ≤ PBMAX
      · rw [if_pos hcap]
        intro hnil
        have hnil2 : dedupAppend a.Values b.Values = [] := hnil
        rcases List.exists_mem_of_ne_nil b.Values hbne2 with ⟨x, hx⟩
        have hmem : x ∈ dedupAppend a.Values b.Values :=
          (mem_dedupAppend b.Values a.Values x).mpr (Or.inr hx)
        rw [hnil2] at hmem
        exact absurd hmem (List.not_mem_nil x)
      · rw [if_neg hcap] at hro
        simp at hro

theorem PointerBase.merge_mono {a a2 b b2 : PointerBase} (haa : pbLECore a a2)
    (hbb : pbLECore b b2) (ha : WFacc a) (ha2 : WFacc a2) (hb : WFfact b)
    (_hb2 : WFfact b2) : pbLECore (a.merge b) (a2.merge b2) := by
  by_cases hro : (a2.merge b2).Overdef = true
  · exact Or.inl hro
  · rcases PointerBase.merge_cases a2 b2 with ⟨_, he⟩ | ⟨_, _, he⟩ | ⟨hb2o, hcond2, he⟩
    · rw [he] at hro
      exact absurd rfl hro
    · rw [he] at hro
      exact absurd rfl hro
    · by_cases ha2o : a2.Overdef = true
      · have hins : ({ a2 with Ty := b2.Ty } : PointerBase).insertList b2.Values =
            { a2 with Ty := b2.Ty } :=
          @PointerBase.insertList_of_overdef { a2 with Ty := b2.Ty } ha2o b2.Values
        rw [he, hins] at hro
        exact absurd ha2o hro
      · have ha2o2 : a2.Overdef = false := by
          cases h : a2.Overdef
          · rfl
          · exact absurd h ha2o
        have hchar2 := PointerBase.merge_union_char ha2o2 ha2.1 ha2.2.1 hb2o hcond2
        by_cases hcap2 : (dedupAppend a2.Values b2.Values).length ≤ PBMAX
        · rw [hchar2, if_pos hcap2]
          have hbo : b.Overdef = false := by
            rcases hbb with h | h | h
            · exact absurd h (by simp [hb2o])
            · exact h.1
            · exact h.1
          have hbne : b.Values ≠ [] := hb.2.2.2 hbo
          have hbb3 : b.Ty = b2.Ty ∧ b.Values ⊆ b2.Values := by
            rcases hbb with h | h | h
            · exact absurd h (by simp [hb2o])
            · exact absurd h.2 hbne
            · exact ⟨h.2.2.1, h.2.2.2⟩
          have hao : a.Overdef = false := by
            rcases haa with h | h | h
            · exact absurd h (by simp [ha2o2])
            · exact h.1
            · exact h.1
          have hsuba : a.Values ⊆ a2.Values := by
            rcases haa with h | h | h
            · exact absurd h (by simp [ha2o2])
            · intro x hx
              rw [h.2] at hx
              exact absurd hx (List.not_mem_nil x)
            · exact h.2.2.2
          have hcond1 : ¬(a.isInitialised = true ∧ b.Ty ≠ a.Ty) := by
            rintro ⟨hinit, hty⟩
            have hane : a.Values ≠ [] := by
              simp only [PointerBase.isInitialised, hao, Bool.false_or,
                decide_eq_true_eq] at hinit
              exact List.length_pos.mp hinit
            have haa3 : a.Ty = a2.Ty := by
              rcases haa with h | h | h
              · exact absurd h (by simp [ha2o2])
              · exact absurd h.2 hane
              · exact h.2.2.1
            have ha2ne : a2.Values ≠ [] := by
              rcases List.exists_mem_of_ne_nil a.Values hane with ⟨x, hx⟩
              intro hnil
              have hx2 := hsuba hx
              rw [hnil] at hx2
              exact absurd hx2 (List.not_mem_nil x)
            have hinit2 : a2.isInitialised = true := by
              simp only [PointerBase.isInitialised, ha2o2, Bool.false_or,
                decide_eq_true_eq]
              exact List.length_pos.mpr ha2ne
            have hty2 : b2.Ty = a2.Ty := by
              by_cases h : b2.Ty = a2.Ty
              · exact h
              · exact absurd ⟨hinit2, h⟩ hcond2
            exact hty (hbb3.1.trans (hty2.trans haa3.symm))
          have hchar1 := PointerBase.merge_union_char hao ha.1 ha.2.1 hbo hcond1
          have hsubU : dedupAppend a.Values b.Values ⊆
              dedupAppend a2.Values b2.Values := by
            intro x hx
            rw [mem_dedupAppend] at hx
            rw [mem_dedupAppend]
            rcases hx with hx | hx
            · exact Or.inl (hsuba hx)
            · exact Or.inr (hbb3.2 hx)
          have hcap1 : (dedupAppend a.Values b.Values).length ≤ PBMAX := by
            have h1 : (dedupAppend a.Values b.Values).length ≤
                (dedupAppend a2.Values b2.Values).length :=
              nodup_subset_length_le (dedupAppend_nodup b.Values a.Values ha.1) hsubU
            omega
          rw [hchar1, if_pos hcap1]
          exact Or.inr (Or.inr ⟨rfl, rfl, hbb3.1, hsubU⟩)
        · rw [hchar2, if_neg hcap2] at hro
          exact absurd rfl hro

/-- Relation between the stored fact of one predecessor at two moments of the
same phase: an absent fact may become present during the optimistic phase but
stays absent during the pessimistic phase (updateBasePointer's early exit);
present facts move up the lattice. -/
def predLE (finalise : Bool) : Option PointerBase → Option PointerBase → Prop
  | none, p2 => finalise = false ∨ p2 = none
  | some _, none => False
  | some q, some q2 => pbLECore q q2

theorem mergePreds_mono (finalise : Bool) (l l2 : List (Option PointerBase))
    (hrel : List.Forall₂ (predLE finalise) l l2) :
    ∀ (acc acc2 : PointerBase) (any any2 : Bool),
    (∀ pb, some pb ∈ l → WFfact pb) → (∀ pb, some pb ∈ l2 → WFfact pb) →
    pbLECore acc acc2 → WFacc acc → WFacc acc2 →
    (acc.Overdef = true → any = true) → (acc2.Overdef = true → any2 = true) →
    (any = true → any2 = true) →
    pbLECore (mergePreds finalise l acc any).2
      (mergePreds finalise l2 acc2 any2).2 ∧
    ((mergePreds finalise l acc any).1 = true →
      (mergePreds finalise l2 acc2 any2).1 = true) := by
  induction hrel with
  | nil =>
    intro acc acc2 any any2 _ _ hacc _ _ _ _ hany
    exact ⟨hacc, hany⟩
  | @cons p p2 tl tl2 hpq hrest ih =>
    intro acc acc2 any any2 hwl hwl2 hacc hwa hwa2 hoda hoda2 hany
    have hwtl : ∀ pb, some pb ∈ tl → WFfact pb :=
      fun pb h => hwl pb (List.mem_cons_of_mem _ h)
    have hwtl2 : ∀ pb, some pb ∈ tl2 → WFfact pb :=
      fun pb h => hwl2 pb (List.mem_cons_of_mem _ h)
    by_cases haccod : acc.Overdef = true
    · have hacc2od : acc2.Overdef = true := by
        rcases hacc with h | h | h
        · exact h
        · exact absurd haccod (by simp [h.1])
        · exact absurd haccod (by simp [h.1])
      rw [show mergePreds finalise (p :: tl) acc any = (any, acc) from by
        simp [mergePreds, haccod]]
      rw [show mergePreds finalise (p2 :: tl2) acc2 any2 = (any2, acc2) from by
        simp [mergePreds, hacc2od]]
      exact ⟨hacc, hany⟩
    · by_cases hacc2od : acc2.Overdef = true
      · rw [show mergePreds finalise (p2 :: tl2) acc2 any2 = (any2, acc2) from by
          simp [mergePreds, hacc2od]]
        exact ⟨Or.inl hacc2od, fun _ => hoda2 hacc2od⟩
      · cases p with
        | none =>
          by_cases hfin : finalise = true
          · have hp2 : p2 = none := by
              rcases hpq with h | h
              · exact absurd hfin (by simp [h])
              · exact h
            subst hp2
            subst hfin
            rw [show mergePreds true (none :: tl) acc any = (true, PointerBase.getOverdef)
              from by simp [mergePreds, haccod]]
            rw [show mergePreds true (none :: tl2) acc2 any2 = (true, PointerBase.getOverdef)
              from by simp [mergePreds, hacc2od]]
            exact ⟨Or.inl rfl, fun _ => rfl⟩
          · have hfin2 : finalise = false := by
              cases h : finalise
              · rfl
              · exact absurd h hfin
            subst hfin2
            rw [show mergePreds false (none :: tl) acc any = mergePreds false tl acc any
              from by simp [mergePreds, haccod]]
            cases p2 with
            | none =>
              rw [show mergePreds false (none :: tl2) acc2 any2 =
                mergePreds false tl2 acc2 any2 from by simp [mergePreds, hacc2od]]
              exact ih acc acc2 any any2 hwtl hwtl2 hacc hwa hwa2 hoda hoda2 hany
            | some q2 =>
              rw [show mergePreds false (some q2 :: tl2) acc2 any2 =
                mergePreds false tl2 (acc2.merge q2) true from by
                  simp [mergePreds, hacc2od]]
              have hq2 : WFfact q2 := hwl2 q2 (List.mem_cons_self _ _)
              have hle : pbLECore acc (acc2.merge q2) :=
                pbLECore_trans hacc (PointerBase.merge_le q2 hwa2.1 hwa2.2.1)
              exact ih acc (acc2.merge q2) any true hwtl hwtl2 hle hwa
                (PointerBase.merge_WFacc hwa2 q2) hoda (fun _ => rfl) (fun _ => rfl)
        | some q =>
          cases p2 with
          | none => exact absurd hpq (by simp [predLE])
          | some q2 =>
            have hqq : pbLECore q q2 := hpq
            have hq : WFfact q := hwl q (List.mem_cons_self _ _)
            have hq2 : WFfact q2 := hwl2 q2 (List.mem_cons_self _ _)
            rw [show mergePreds finalise (some q :: tl) acc any =
              mergePreds finalise tl (acc.merge q) true from by
                simp [mergePreds, haccod]]
            rw [show mergePreds finalise (some q2 :: tl2) acc2 any2 =
              mergePreds finalise tl2 (acc2.merge q2) true from by
                simp [mergePreds, hacc2od]]
            exact ih (acc.merge q) (acc2.merge q2) true true hwtl hwtl2
              (PointerBase.merge_mono hacc hqq hwa hwa2 hq hq2)
              (PointerBase.merge_WFacc hwa q) (PointerBase.merge_WFacc hwa2 q2)
              (fun _ => rfl) (fun _ => rfl) (fun _ => rfl)

theorem mergePreds_WF (finalise : Bool) :
    ∀ (l : List (Option PointerBase)) (acc : PointerBase) (any : Bool),
    (∀ pb, some pb ∈ l → WFfact pb) → WFacc acc →
    (any = true → acc.Overdef = false → acc.Values ≠ []) →
    WFacc (mergePreds finalise l acc any).2 ∧
    ((mergePreds finalise l acc any).1 = true →
      (mergePreds finalise l acc any).2.Overdef = false →
      (mergePreds finalise l acc any).2.Values ≠ [])
  | [], acc, any, _, hwacc, hne => ⟨hwacc, hne⟩
  | p :: rest, acc, any, hwl, hwacc, hne => by
    have hwrest : ∀ pb, some pb ∈ rest → WFfact pb :=
      fun pb h => hwl pb (List.mem_cons_of_mem _ h)
    by_cases haccod : acc.Overdef = true
    · rw [show mergePreds finalise (p :: rest) acc any = (any, acc) from by
        simp [mergePreds, haccod]]
      exact ⟨hwacc, fun _ hf => absurd (haccod.symm.trans hf) (by simp)⟩
    · cases p with
      | none =>
        by_cases hfin : finalise = true
        · subst hfin
          rw [show mergePreds true (none :: rest) acc any =
            (true, PointerBase.getOverdef) from by simp [mergePreds, haccod]]
          exact ⟨⟨List.nodup_nil, by simp [PBMAX, PointerBase.getOverdef],
            fun _ => rfl⟩, fun _ hf => absurd hf (by simp [PointerBase.getOverdef])⟩
        · have hfin2 : finalise = false := by
            cases h : finalise
            · rfl
            · exact absurd h hfin
          subst hfin2
          rw [show mergePreds false (none :: rest) acc any =
            mergePreds false rest acc any from by simp [mergePreds, haccod]]
          exact mergePreds_WF false rest acc any hwrest hwacc hne
      | some q =>
        rw [show mergePreds finalise (some q :: rest) acc any =
          mergePreds finalise rest (acc.merge q) true from by
            simp [mergePreds, haccod]]
        have hq : WFfact q := hwl q (List.mem_cons_self _ _)
        have hbne : q.Values ≠ [] ∨ q.Overdef = true := by
          by_cases hqo : q.Overdef = true
          · exact Or.inr hqo
          · exact Or.inl (hq.2.2.2 (by
              cases h : q.Overdef
              · rfl
              · exact absurd h hqo))
        exact mergePreds_WF finalise rest (acc.merge q) true hwrest
          (PointerBase.merge_WFacc hwacc q)
          (fun _ => PointerBase.merge_nonempty hwacc hbne)

/-- A value of the mini program over which updateBasePointer's merge rule is
exercised: a leaf whose fact comes from outside the merge network (loads
resolved by tryForwardLoadPB, arguments pulled from the parent context,
constants — fixed for the duration of a phase), or a PHI / select /
call-return merge over the listed predecessor values. -/
inductive PBDefKind where
  | leaf (fact : Option PointerBase)
  | phi (preds : List Nat)
  deriving DecidableEq, Repr

/-- The transfer function of updateBasePointer on the mini program: a leaf
yields its oracle fact; a phi runs getMergeBasePointer's merge loop over the
predecessors' stored facts, yielding a fact only when the loop reported
anyInfo (none models updateBasePointer returning false and storing nothing). -/
def transferM (defs : List PBDefKind) (finalise : Bool)
    (facts : List (Option PointerBase)) (v : Nat) : Option PointerBase :=
  match defs[v]? with
  | none => none
  | some (.leaf f) => f
  | some (.phi preds) =>
    let r := mergePreds finalise (preds.map (fun p => facts.getD p none))
      ⟨ValSetType.Unknown, [], false⟩ false
    if r.1 = true then some r.2 else none

/-- updateBasePointer on the mini program: the pessimistic early exit (with
finalise, an absent or overdefined old fact is never rewritten), the transfer,
the draw-no-conclusion exit, and the store guarded by operator== — a changed
fact is written into the table and the change is reported. -/
def updateBasePointerM (defs : List PBDefKind) (finalise : Bool)
    (facts : List (Option PointerBase)) (v : Nat) :
    List (Option PointerBase) × Bool :=
  let old := facts.getD v none
  let oldBad : Bool := match old with | none => true | some o => o.Overdef
  if finalise = true ∧ oldBad = true then (facts, false)
  else
    match transferM defs finalise facts v with
    | none => (facts, false)
    | some newPB =>
      match old with
      | none => (facts.set v (some newPB), true)
      | some o => if o.beq newPB = true then (facts, false)
                  else (facts.set v (some newPB), true)

/-- Every fact stored in the table is well-formed. -/
def WFenv (facts : List (Option PointerBase)) : Prop :=
  ∀ v pb, facts.getD v none = some pb → WFfact pb

/-- Every leaf oracle fact of the program is well-formed. -/
def WFdefs (defs : List PBDefKind) : Prop :=
  ∀ (v : Nat) (f : Option PointerBase),
    defs[v]? = some (PBDefKind.leaf f) → ∀ pb, f = some pb → WFfact pb

/-- Pointwise phase evolution of fact tables: facts move up the lattice, and
during the pessimistic phase absent facts stay absent. -/
def envLE (finalise : Bool) (f g : List (Option PointerBase)) : Prop :=
  ∀ v, pbLE (f.getD v none) (g.getD v none) ∧
    (finalise = true → f.getD v none = none → g.getD v none = none)

/-- The solver invariant: every stored fact lies below the transfer function's
current output for its value. The cleared table that starts a phase satisfies
it trivially, and every updateBasePointer store preserves it. -/
def InvM (defs : List PBDefKind) (finalise : Bool)
    (facts : List (Option PointerBase)) : Prop :=
  ∀ v, pbLE (facts.getD v none) (transferM defs finalise facts v)

theorem WFaccBot : WFacc ⟨ValSetType.Unknown, [], false⟩ :=
  ⟨List.nodup_nil, by simp [PBMAX], fun _ => rfl⟩

theorem predLE_map (finalise : Bool) (f g : List (Option PointerBase))
    (hle : envLE finalise f g) : ∀ preds : List Nat,
    List.Forall₂ (predLE finalise) (preds.map (fun p => f.getD p none))
      (preds.map (fun p => g.getD p none))
  | [] => List.Forall₂.nil
  | p :: ps => by
    simp only [List.map_cons]
    refine List.Forall₂.cons ?_ (predLE_map finalise f g hle ps)
    cases hf : f.getD p none with
    | none =>
      show finalise = false ∨ g.getD p none = none
      by_cases hfin : finalise = true
      · exact Or.inr ((hle p).2 hfin hf)
      · refine Or.inl ?_
        cases h : finalise
        · rfl
        · exact absurd h hfin
    | some q =>
      cases hg : g.getD p none with
      | none =>
        have h1 := (hle p).1
        rw [hf, hg] at h1
        exact absurd h1 (by simp [pbLE])
      | some q2 =>
        have h1 := (hle p).1
        rw [hf, hg] at h1
        exact h1

theorem transferM_mono (defs : List PBDefKind) (finalise : Bool)
    (f g : List (Option PointerBase)) (v : Nat) (hle : envLE finalise f g)
    (hwf : WFenv f) (hwg : WFenv g) :
    pbLE (transferM defs finalise f v) (transferM defs finalise g v) := by
  cases hd : defs[v]? with
  | none => simp [transferM, hd, pbLE]
  | some dk =>
    cases dk with
    | leaf fc =>
      simp only [transferM, hd]
      exact pbLE_refl fc
    | phi preds =>
      have hrel := predLE_map finalise f g hle preds
      have hwl : ∀ pb, some pb ∈ preds.map (fun p => f.getD p none) → WFfact pb := by
        intro pb hmem
        rcases List.mem_map.mp hmem with ⟨p, _, hp⟩
        exact hwf p pb hp
      have hwl2 : ∀ pb, some pb ∈ preds.map (fun p => g.getD p none) → WFfact pb := by
        intro pb hmem
        rcases List.mem_map.mp hmem with ⟨p, _, hp⟩
        exact hwg p pb hp
      have hmono := mergePreds_mono finalise _ _ hrel
        ⟨ValSetType.Unknown, [], false⟩ ⟨ValSetType.Unknown, [], false⟩ false false
        hwl hwl2 (pbLECore_refl _) WFaccBot WFaccBot
        (fun h => h) (fun h => h) (fun h => h)
      simp only [transferM, hd]
      by_cases hr1 : (mergePreds finalise (preds.map (fun p => f.getD p none))
          ⟨ValSetType.Unknown, [], false⟩ false).1 = true
      · rw [if_pos hr1, if_pos (hmono.2 hr1)]
        exact hmono.1
      · rw [if_neg hr1]
        by_cases hr2 : (mergePreds finalise (preds.map (fun p => g.getD p none))
            ⟨ValSetType.Unknown, [], false⟩ false).1 = true
        · rw [if_pos hr2]
          trivial
        · rw [if_neg hr2]
          trivial

theorem transferM_WF (defs : List PBDefKind) (finalise : Bool)
    (facts : List (Option PointerBase)) (v : Nat) (hwd : WFdefs defs)
    (hwf : WFenv facts) :
    ∀ pb, transferM defs finalise facts v = some pb → WFfact pb := by
  intro pb hpb
  cases hd : defs[v]? with
  | none =>
    simp only [transferM, hd] at hpb
    exact absurd hpb (by simp)
  | some dk =>
    cases dk with
    | leaf fc =>
      simp only [transferM, hd] at hpb
      exact hwd v fc hd pb hpb
    | phi preds =>
      simp only [transferM, hd] at hpb
      have hwl : ∀ q, some q ∈ preds.map (fun p => facts.getD p none) → WFfact q := by
        intro q hmem
        rcases List.mem_map.mp hmem with ⟨p, _, hp⟩
        exact hwf p q hp
      have hWF := mergePreds_WF finalise (preds.map (fun p => facts.getD p none))
        ⟨ValSetType.Unknown, [], false⟩ false hwl WFaccBot (fun h => absurd h (by simp))
      by_cases hr1 : (mergePreds finalise (preds.map (fun p => facts.getD p none))
          ⟨ValSetType.Unknown, [], false⟩ false).1 = true
      · rw [if_pos hr1] at hpb
        have hpb2 := Option.some.inj hpb
        subst hpb2
        exact ⟨hWF.1.1, hWF.1.2.1, hWF.1.2.2, hWF.2 hr1⟩
      · rw [if_neg hr1] at hpb
        exact absurd hpb (by simp)

theorem mergePreds_nonone_eq : ∀ (l : List (Option PointerBase))
    (acc : PointerBase) (any : Bool), none ∉ l →
    mergePreds false l acc any = mergePreds true l acc any
  | [], _, _, _ => rfl
  | p :: rest, acc, any, hnm => by
    by_cases haccod : acc.Overdef = true
    · simp [mergePreds, haccod]
    · cases p with
      | none => exact absurd (List.mem_cons_self none rest) hnm
      | some q =>
        rw [show mergePreds false (some q :: rest) acc any =
          mergePreds false rest (acc.merge q) true from by simp [mergePreds, haccod]]
        rw [show mergePreds true (some q :: rest) acc any =
          mergePreds true rest (acc.merge q) true from by simp [mergePreds, haccod]]
        exact mergePreds_nonone_eq rest (acc.merge q) true
          (fun h => hnm (List.mem_cons_of_mem _ h))

theorem transferM_pess_ge_opt (defs : List PBDefKind)
    (facts : List (Option PointerBase)) (v : Nat) :
    pbLE (transferM defs false facts v) (transferM defs true facts v) := by
  cases hd : defs[v]? with
  | none => simp [transferM, hd, pbLE]
  | some dk =>
    cases dk with
    | leaf fc =>
      simp only [transferM, hd]
      exact pbLE_refl fc
    | phi preds =>
      simp only [transferM, hd]
      by_cases hnm : none ∈ preds.map (fun p => facts.getD p none)
      · have htop := mergePreds_true_none (preds.map (fun p => facts.getD p none))
          ⟨ValSetType.Unknown, [], false⟩ false hnm (fun _ => rfl) (fun h => h)
        rw [if_pos htop.1]
        by_cases hr1 : (mergePreds false (preds.map (fun p => facts.getD p none))
            ⟨ValSetType.Unknown, [], false⟩ false).1 = true
        · rw [if_pos hr1]
          exact Or.inl htop.2.1
        · rw [if_neg hr1]
          trivial
      · rw [mergePreds_nonone_eq _ _ _ hnm]
        exact pbLE_refl _

theorem getD_set_self : ∀ (l : List (Option PointerBase)) (v : Nat)
    (x : Option PointerBase), v < l.length → (l.set v x).getD v none = x
  | [], _, _, h => absurd h (by simp)
  | _ :: rest, 0, x, _ => by
    show (x :: rest).getD 0 none = x
    exact List.getD_cons_zero
  | a :: rest, v + 1, x, h => by
    show (a :: rest.set v x).getD (v + 1) none = x
    rw [List.getD_cons_succ]
    exact getD_set_self rest v x (by simpa using h)

theorem getD_set_ne : ∀ (l : List (Option PointerBase)) (v u : Nat)
    (x : Option PointerBase), u ≠ v → (l.set v x).getD u none = l.getD u none
  | [], _, _, _, _ => by simp
  | a :: rest, 0, u, x, hne => by
    show (x :: rest).getD u none = (a :: rest).getD u none
    cases u with
    | zero => exact absurd rfl hne
    | succ w => rw [List.getD_cons_succ, List.getD_cons_succ]
  | a :: rest, v + 1, u, x, hne => by
    show (a :: rest.set v x).getD u none = (a :: rest).getD u none
    cases u with
    | zero => rw [List.getD_cons_zero, List.getD_cons_zero]
    | succ w =>
      rw [List.getD_cons_succ, List.getD_cons_succ]
      exact getD_set_ne rest v w x (fun h => hne (by omega))

theorem envLE_refl (finalise : Bool) (f : List (Option PointerBase)) :
    envLE finalise f f :=
  fun v => ⟨pbLE_refl _, fun _ h => h⟩

theorem updateBasePointerM_def (defs : List PBDefKind) (finalise : Bool)
    (facts : List (Option PointerBase)) (v : Nat) :
    updateBasePointerM defs finalise facts v =
      if finalise = true ∧ (match facts.getD v none with
          | none => true
          | some o => o.Overdef) = true then (facts, false)
      else match transferM defs finalise facts v with
        | none => (facts, false)
        | some newPB =>
          match facts.getD v none with
          | none => (facts.set v (some newPB), true)
          | some o => if o.beq newPB = true then (facts, false)
                      else (facts.set v (some newPB), true) := rfl

theorem updateBasePointerM_noop_pess (defs : List PBDefKind)
    (facts : List (Option PointerBase)) (v : Nat)
    (h : facts.getD v none = none ∨
      ∃ o, facts.getD v none = some o ∧ o.Overdef = true) :
    updateBasePointerM defs true facts v = (facts, false) := by
  have hbad : (match facts.getD v none with
      | none => true
      | some o => o.Overdef) = true := by
    rcases h with h | ⟨o, ho, hod⟩
    · rw [h]
    · rw [ho]
      exact hod
  rw [updateBasePointerM_def, if_pos ⟨rfl, hbad⟩]

theorem updateBasePointerM_cases (defs : List PBDefKind) (finalise : Bool)
    (facts : List (Option PointerBase)) (v : Nat) :
    updateBasePointerM defs finalise facts v = (facts, false) ∨
    ∃ newPB, transferM defs finalise facts v = some newPB ∧
      updateBasePointerM defs finalise facts v = (facts.set v (some newPB), true) ∧
      (finalise = true → ∃ o, facts.getD v none = some o ∧ o.Overdef = false) ∧
      (facts.getD v none = none ∨
        ∃ o, facts.getD v none = some o ∧ o.beq newPB = false) := by
  by_cases hbad : finalise = true ∧ (match facts.getD v none with
      | none => true
      | some o => o.Overdef) = true
  · refine Or.inl ?_
    rcases hbad with ⟨hfin, hb⟩
    subst hfin
    exact updateBasePointerM_noop_pess defs facts v (by
      cases hold : facts.getD v none with
      | none => exact Or.inl rfl
      | some o =>
        refine Or.inr ⟨o, rfl, ?_⟩
        rw [hold] at hb
        exact hb)
  · cases ht : transferM defs finalise facts v with
    | none =>
      refine Or.inl ?_
      rw [updateBasePointerM_def, if_neg hbad]
      simp only [ht]
    | some newPB =>
      cases hold : facts.getD v none with
      | none =>
        have hfin : ¬(finalise = true) := fun hf => hbad ⟨hf, by rw [hold]⟩
        refine Or.inr ⟨newPB, rfl, ?_, ?_, Or.inl rfl⟩
        · rw [updateBasePointerM_def, if_neg hbad]
          simp only [ht, hold]
        · intro hf
          exact absurd hf hfin
      | some o =>
        have hbad2 : ¬(finalise = true ∧ o.Overdef = true) :=
          fun hc => hbad ⟨hc.1, by rw [hold]; exact hc.2⟩
        by_cases hbeq : o.beq newPB = true
        · refine Or.inl ?_
          rw [updateBasePointerM_def, if_neg hbad]
          simp only [ht, hold]
          rw [if_pos hbeq]
        · have hbeq2 : o.beq newPB = false := by
            cases h : o.beq newPB
            · rfl
            · exact absurd h hbeq
          refine Or.inr ⟨newPB, rfl, ?_, ?_, Or.inr ⟨o, rfl, hbeq2⟩⟩
          · rw [updateBasePointerM_def, if_neg hbad]
            simp only [ht, hold]
            rw [if_neg hbeq]
          · intro hfin
            refine ⟨o, rfl, ?_⟩
            cases hoo : o.Overdef
            · rfl
            · exact absurd ⟨hfin, hoo⟩ hbad2

theorem updateBasePointerM_step (defs : List PBDefKind) (finalise : Bool)
    (facts : List (Option PointerBase)) (v : Nat) (hwd : WFdefs defs)
    (hlen : facts.length = defs.length) (hInv : InvM defs finalise facts)
    (hwf : WFenv facts) :
    (updateBasePointerM defs finalise facts v).1.length = facts.length ∧
    envLE finalise facts (updateBasePointerM defs finalise facts v).1 ∧
    WFenv (updateBasePointerM defs finalise facts v).1 ∧
    InvM defs finalise (updateBasePointerM defs finalise facts v).1 := by
  rcases updateBasePointerM_cases defs finalise facts v with heq |
    ⟨newPB, ht, heq, hpess, _⟩
  · rw [heq]
    exact ⟨rfl, envLE_refl finalise facts, hwf, hInv⟩
  · have hvlt : v < facts.length := by
      by_cases h : v < defs.length
      · omega
      · have : defs[v]? = none := by
          rw [List.getElem?_eq_none]
          omega
        rw [transferM, this] at ht
        exact absurd ht (by simp)
    have hle : envLE finalise facts (facts.set v (some newPB)) := by
      intro u
      by_cases hu : u = v
      · subst hu
        rw [getD_set_self facts u (some newPB) hvlt]
        constructor
        · have h1 := hInv u
          rw [ht] at h1
          exact h1
        · intro hfin hnone
          rcases hpess hfin with ⟨o, ho, _⟩
          rw [hnone] at ho
          exact absurd ho (by simp)
      · rw [getD_set_ne facts v u (some newPB) hu]
        exact ⟨pbLE_refl _, fun _ h => h⟩
    have hwf2 : WFenv (facts.set v (some newPB)) := by
      intro u pb hpb
      by_cases hu : u = v
      · subst hu
        rw [getD_set_self facts u (some newPB) hvlt] at hpb
        have hpb2 := Option.some.inj hpb
        subst hpb2
        exact transferM_WF defs finalise facts u hwd hwf newPB ht
      · rw [getD_set_ne facts v u (some newPB) hu] at hpb
        exact hwf u pb hpb
    have hInv2 : InvM defs finalise (facts.set v (some newPB)) := by
      intro u
      have hmono := transferM_mono defs finalise facts (facts.set v (some newPB)) u
        hle hwf hwf2
      by_cases hu : u = v
      · subst hu
        rw [getD_set_self facts u (some newPB) hvlt]
        rw [ht] at hmono
        exact hmono
      · rw [getD_set_ne facts v u (some newPB) hu]
        exact pbLE_trans (hInv u) hmono
    rw [heq]
    exact ⟨List.length_set facts v (some newPB), hle, hwf2, hInv2⟩


/-- One sweep segment of a solver phase: process a list of queued values in
order, each through updateBasePointer, keeping the updated fact table. -/
def runUpdates (defs : List PBDefKind) (finalise : Bool)
    (facts : List (Option PointerBase)) (vs : List Nat) :
    List (Option PointerBase) :=
  vs.foldl (fun f v => (updateBasePointerM defs finalise f v).1) facts

theorem envLE_trans {finalise : Bool} {f g h : List (Option PointerBase)}
    (h1 : envLE finalise f g) (h2 : envLE finalise g h) : envLE finalise f h :=
  fun v => ⟨pbLE_trans (h1 v).1 (h2 v).1,
    fun hf hn => (h2 v).2 hf ((h1 v).2 hf hn)⟩

theorem runUpdates_props (defs : List PBDefKind) (finalise : Bool) :
    ∀ (vs : List Nat) (facts : List (Option PointerBase)),
    WFdefs defs → facts.length = defs.length →
    InvM defs finalise facts → WFenv facts →
    (runUpdates defs finalise facts vs).length = facts.length ∧
    envLE finalise facts (runUpdates defs finalise facts vs) ∧
    WFenv (runUpdates defs finalise facts vs) ∧
    InvM defs finalise (runUpdates defs finalise facts vs)
  | [], _, _, _, hInv, hwf => ⟨rfl, envLE_refl _ _, hwf, hInv⟩
  | v :: rest, facts, hwd, hlen, hInv, hwf => by
    obtain ⟨hl, he, hw, hi⟩ :=
      updateBasePointerM_step defs finalise facts v hwd hlen hInv hwf
    obtain ⟨hl2, he2, hw2, hi2⟩ := runUpdates_props defs finalise rest
      (updateBasePointerM defs finalise facts v).1 hwd (hl.trans hlen) hi hw
    exact ⟨hl2.trans hl, envLE_trans he he2, hw2, hi2⟩

theorem runUpdates_append (defs : List PBDefKind) (finalise : Bool)
    (facts : List (Option PointerBase)) (vs1 vs2 : List Nat) :
    runUpdates defs finalise facts (vs1 ++ vs2) =
      runUpdates defs finalise (runUpdates defs finalise facts vs1) vs2 :=
  List.foldl_append _ _ _ _

/-- isBetterThanOrEqual of PointerBase.cpp: an overdefined old value is always
matched, an overdefined new value never improves on a defined old one, and
otherwise the new value list must not be longer than the old one. -/
def isBetterThanOrEqual (NewPB OldPB : PointerBase) : Bool :=
  if OldPB.Overdef = true then true
  else if NewPB.Overdef = true then false
  else decide (NewPB.Values.length ≤ OldPB.Values.length)

theorem getD_replicate_none : ∀ (n v : Nat),
    (List.replicate n (none : Option PointerBase)).getD v none = none
  | 0, _ => rfl
  | _+1, 0 => rfl
  | n+1, v+1 => by
    rw [List.replicate_succ, List.getD_cons_succ]
    exact getD_replicate_none n v

theorem WFenv_replicate (n : Nat) :
    WFenv (List.replicate n (none : Option PointerBase)) := by
  intro v pb h
  rw [getD_replicate_none] at h
  exact absurd h (by simp)

/-- The cleared table that starts a solver phase satisfies the solver
invariant: every (absent) fact lies below its transfer result. -/
theorem InvM_replicate (defs : List PBDefKind) (finalise : Bool) (n : Nat) :
    InvM defs finalise (List.replicate n (none : Option PointerBase)) := by
  intro v
  rw [getD_replicate_none]
  trivial

theorem WFdefs_phiNil : WFdefs [PBDefKind.phi []] := by
  intro v f h
  cases v <;> simp at h

/-- Counterexample to C8's end-of-run clause as stated: the solver does not
guarantee that a reconsidered value's final fact is better than or equal to
its initialised snapshot — queueNewPBWork merely asserts it. The per-value
check driver (erase the fact, run updateBasePointer optimistically then
pessimistically) on a load whose walk yields the single base x stores
exactly that base, leaving an initialised snapshot for the next run; after
the program changes so that the same load's walk yields overdefined (as the
cache-invalidation machinery anticipates), the same check sequence
re-derives overdefined from the cleared table, and the final fact fails the
isBetterThanOrEqual comparison against the snapshot. -/
theorem C8_counterexample :
    runUpdates [PBDefKind.leaf
        (some ⟨ValSetType.PB, [⟨0, 0, 0, 0⟩], false⟩)] true
      (runUpdates [PBDefKind.leaf
        (some ⟨ValSetType.PB, [⟨0, 0, 0, 0⟩], false⟩)] false [none] [0]) [0]
      = [some ⟨ValSetType.PB, [⟨0, 0, 0, 0⟩], false⟩] ∧
    (PointerBase.mk ValSetType.PB [⟨0, 0, 0, 0⟩] false).isInitialised = true ∧
    runUpdates [PBDefKind.leaf (some PointerBase.getOverdef)] true
      (runUpdates [PBDefKind.leaf (some PointerBase.getOverdef)]
        false [none] [0]) [0]
      = [some PointerBase.getOverdef] ∧
    isBetterThanOrEqual PointerBase.getOverdef
      ⟨ValSetType.PB, [⟨0, 0, 0, 0⟩], false⟩ = false :=
  ⟨rfl, rfl, rfl, rfl⟩

/-- C8 (amended): within one solver phase the stored facts move monotonically
up the lattice along every update sequence (an absent fact below every value
set, value sets ordered by inclusion, overdefined on top), and
updateBasePointer with finalise=true leaves a table whose old fact is absent
or overdefined exactly unchanged, reporting no change. The end-of-run
comparison of a reconsidered value's fact with its pre-run snapshot is only
asserted by queueNewPBWork, not established by the solver. -/
theorem C8_in_phase_monotonicity (defs : List PBDefKind) (finalise : Bool)
    (facts : List (Option PointerBase)) (vs1 vs2 : List Nat)
    (hwd : WFdefs defs) (hlen : facts.length = defs.length)
    (hInv : InvM defs finalise facts) (hwf : WFenv facts) :
    envLE finalise (runUpdates defs finalise facts vs1)
      (runUpdates defs finalise facts (vs1 ++ vs2)) ∧
    (∀ v, (facts.getD v none = none ∨
        (∃ o, facts.getD v none = some o ∧ o.Overdef = true)) →
      updateBasePointerM defs true facts v = (facts, false)) := by
  refine ⟨?_, ?_⟩
  · rw [runUpdates_append]
    obtain ⟨hl1, _, hw1, hi1⟩ :=
      runUpdates_props defs finalise vs1 facts hwd hlen hInv hwf
    exact (runUpdates_props defs finalise vs2 _ hwd (hl1.trans hlen) hi1 hw1).2.1
  · intro v h
    exact updateBasePointerM_noop_pess defs facts v h

/-- Witness for C8 at a concrete input: a one-value program consisting of a
single predecessor-less PHI, starting from the cleared one-entry table, under
two optimistic sweeps of its only value. -/
theorem C8_witness :
    WFdefs [PBDefKind.phi []] ∧
    (List.replicate 1 (none : Option PointerBase)).length =
      [PBDefKind.phi []].length ∧
    InvM [PBDefKind.phi []] false (List.replicate 1 none) ∧
    WFenv (List.replicate 1 none) ∧
    (envLE false (runUpdates [PBDefKind.phi []] false (List.replicate 1 none) [0])
      (runUpdates [PBDefKind.phi []] false (List.replicate 1 none) ([0] ++ [0])) ∧
    (∀ v, ((List.replicate 1 (none : Option PointerBase)).getD v none = none ∨
        (∃ o, (List.replicate 1 (none : Option PointerBase)).getD v none = some o ∧
          o.Overdef = true)) →
      updateBasePointerM [PBDefKind.phi []] true (List.replicate 1 none) v =
        (List.replicate 1 none, false))) :=
  ⟨WFdefs_phiNil, rfl, InvM_replicate _ _ _, WFenv_replicate _,
    C8_in_phase_monotonicity [PBDefKind.phi []] false (List.replicate 1 none)
      [0] [0] WFdefs_phiNil rfl (InvM_replicate _ _ _) (WFenv_replicate _)⟩


/-- The predecessors a value's transfer function reads (none for leaves). -/
def predsOfM (defs : List PBDefKind) (u : Nat) : List Nat :=
  match defs[u]? with
  | some (.phi preds) => preds
  | _ => []

/-- The users a changed value requeues (queueUsersUpdatePB): every program
value whose transfer function reads it. -/
def usersM (defs : List PBDefKind) (v : Nat) : List Nat :=
  (List.range defs.length).filter (fun u => decide (v ∈ predsOfM defs u))

theorem usersM_length_le (defs : List PBDefKind) (v : Nat) :
    (usersM defs v).length ≤ defs.length := by
  have h1 := List.length_filter_le (fun u => decide (v ∈ predsOfM defs u))
    (List.range defs.length)
  rw [List.length_range] at h1
  exact h1

/-- The running state of runPointerBaseSolver's double-buffered worklist
loop: the fact table, the queue being consumed, and the queue being
produced. -/
structure SolverQs where
  facts : List (Option PointerBase)
  consumeQ : List Nat
  produceQ : List Nat

/-- std::sort followed by std::unique, applied to the consume queue at the
start of every sweep. -/
def sortUnique (l : List Nat) : List Nat :=
  (l.insertionSort (fun a b => a ≤ b)).dedup

theorem sortUnique_length_le (l : List Nat) :
    (sortUnique l).length ≤ l.length := by
  have h1 := (List.dedup_sublist (l.insertionSort (fun a b => a ≤ b))).length_le
  have h2 := (List.perm_insertionSort (fun a b => a ≤ b) l).length_eq
  exact h1.trans (Nat.le_of_eq h2)

/-- One step of runPointerBaseSolver's loop: process the consume queue's head
through updateBasePointer, requeueing the value's users on the produce queue
when the stored fact changed; with the consume queue exhausted, swap in the
sorted deduplicated produce queue; with both queues empty, stop. -/
def solverStepM (defs : List PBDefKind) (finalise : Bool) (s : SolverQs) :
    SolverQs :=
  match s.consumeQ with
  | v :: rest =>
    match updateBasePointerM defs finalise s.facts v with
    | (newFacts, true) =>
      { facts := newFacts, consumeQ := rest,
        produceQ := s.produceQ ++ usersM defs v }
    | (newFacts, false) =>
      { facts := newFacts, consumeQ := rest, produceQ := s.produceQ }
  | [] =>
    match s.produceQ with
    | [] => s
    | p :: ps =>
      { facts := s.facts, consumeQ := sortUnique (p :: ps), produceQ := [] }

def iterSolver (defs : List PBDefKind) (finalise : Bool) :
    Nat → SolverQs → SolverQs
  | 0, s => s
  | k+1, s => iterSolver defs finalise k (solverStepM defs finalise s)

/-- The height of a stored fact in the finite lattice: absent at the bottom,
a value set one above its size, overdefined on top. -/
def rankM : Option PointerBase → Nat
  | none => 0
  | some o => if o.Overdef = true then PBMAX + 2 else o.Values.length + 1

def sumPot (facts : List (Option PointerBase)) : Nat :=
  (facts.map rankM).sum

/-- The termination measure of the worklist loop: remaining room in the
lattice, weighted to dominate any requeueing, plus the queue lengths and a
flag for the pending swap. -/
def measureM (defs : List PBDefKind) (s : SolverQs) : Nat :=
  (2 * defs.length + 2) * ((PBMAX + 2) * defs.length - sumPot s.facts)
    + 2 * s.consumeQ.length + 2 * s.produceQ.length
    + (if s.produceQ = [] then 0 else 1)

theorem solverStepM_cases (defs : List PBDefKind) (finalise : Bool)
    (s : SolverQs) :
    (s.consumeQ = [] ∧ s.produceQ = [] ∧ solverStepM defs finalise s = s) ∨
    (∃ p ps, s.consumeQ = [] ∧ s.produceQ = p :: ps ∧
      solverStepM defs finalise s =
        { facts := s.facts, consumeQ := sortUnique (p :: ps),
          produceQ := [] }) ∨
    (∃ v rest newFacts chg, s.consumeQ = v :: rest ∧
      updateBasePointerM defs finalise s.facts v = (newFacts, chg) ∧
      solverStepM defs finalise s =
        { facts := newFacts, consumeQ := rest,
          produceQ := if chg = true then s.produceQ ++ usersM defs v
            else s.produceQ }) := by
  cases h1 : s.consumeQ with
  | nil =>
    cases h2 : s.produceQ with
    | nil =>
      refine Or.inl ⟨rfl, rfl, ?_⟩
      simp [solverStepM, h1, h2]
    | cons p ps =>
      refine Or.inr (Or.inl ⟨p, ps, rfl, rfl, ?_⟩)
      simp [solverStepM, h1, h2]
  | cons v rest =>
    cases hres : updateBasePointerM defs finalise s.facts v with
    | mk newFacts chg =>
      refine Or.inr (Or.inr ⟨v, rest, newFacts, chg, rfl, hres, ?_⟩)
      cases chg
      · simp [solverStepM, h1, hres]
      · simp [solverStepM, h1, hres]

theorem solverStepM_inv (defs : List PBDefKind) (finalise : Bool)
    (s : SolverQs) (hwd : WFdefs defs)
    (hlen : s.facts.length = defs.length)
    (hInv : InvM defs finalise s.facts) (hwf : WFenv s.facts) :
    (solverStepM defs finalise s).facts.length = defs.length ∧
    InvM defs finalise (solverStepM defs finalise s).facts ∧
    WFenv (solverStepM defs finalise s).facts := by
  rcases solverStepM_cases defs finalise s with ⟨_, _, heq⟩ |
    ⟨p, ps, _, _, heq⟩ | ⟨v, rest, newFacts, chg, h1, hres, heq⟩
  · rw [heq]
    exact ⟨hlen, hInv, hwf⟩
  · rw [heq]
    exact ⟨hlen, hInv, hwf⟩
  · have hstep := updateBasePointerM_step defs finalise s.facts v hwd hlen hInv hwf
    have hf : (updateBasePointerM defs finalise s.facts v).1 = newFacts := by
      rw [hres]
    rw [hf] at hstep
    rw [heq]
    exact ⟨(hstep.1).trans hlen, hstep.2.2.2, hstep.2.2.1⟩

theorem rankM_le_of_WF : ∀ (x : Option PointerBase),
    (∀ pb, x = some pb → WFfact pb) → rankM x ≤ PBMAX + 2
  | none, _ => Nat.zero_le _
  | some o, h => by
    have hw := h o rfl
    cases hod : o.Overdef
    · have h2 := hw.2.1
      simp [rankM, hod]
      omega
    · simp [rankM, hod]

theorem getD_of_mem : ∀ (l : List (Option PointerBase))
    (x : Option PointerBase), x ∈ l → ∃ v, l.getD v none = x
  | [], x, hx => absurd hx (List.not_mem_nil x)
  | a :: rest, x, hx => by
    rcases List.mem_cons.mp hx with h | h
    · exact ⟨0, by rw [List.getD_cons_zero]; exact h.symm⟩
    · obtain ⟨v, hv⟩ := getD_of_mem rest x h
      exact ⟨v + 1, by rw [List.getD_cons_succ]; exact hv⟩

theorem sumPot_le : ∀ (facts : List (Option PointerBase)),
    (∀ x ∈ facts, rankM x ≤ PBMAX + 2) →
    sumPot facts ≤ (PBMAX + 2) * facts.length
  | [], _ => Nat.zero_le _
  | x :: rest, h => by
    have h1 := h x (List.mem_cons_self x rest)
    have h2 := sumPot_le rest (fun y hy => h y (List.mem_cons_of_mem x hy))
    calc sumPot (x :: rest) = rankM x + sumPot rest := rfl
      _ ≤ (PBMAX + 2) + (PBMAX + 2) * rest.length := Nat.add_le_add h1 h2
      _ = (PBMAX + 2) * (rest.length + 1) := by
          rw [Nat.mul_add, Nat.mul_one, Nat.add_comm]
      _ = (PBMAX + 2) * (x :: rest).length := by rw [List.length_cons]

theorem sumPot_le_of_WFenv (facts : List (Option PointerBase))
    (hwf : WFenv facts) : sumPot facts ≤ (PBMAX + 2) * facts.length := by
  refine sumPot_le facts ?_
  intro x hx
  refine rankM_le_of_WF x ?_
  intro pb hpb
  subst hpb
  obtain ⟨v, hv⟩ := getD_of_mem facts (some pb) hx
  exact hwf v pb hv

theorem sumPot_set : ∀ (l : List (Option PointerBase)) (v : Nat)
    (x : Option PointerBase), v < l.length →
    sumPot (l.set v x) + rankM (l.getD v none) = sumPot l + rankM x
  | a :: rest, 0, x, _ => by
    show (rankM x + sumPot rest) + rankM a = (rankM a + sumPot rest) + rankM x
    omega
  | a :: rest, v+1, x, h => by
    show (rankM a + sumPot (rest.set v x)) + rankM (rest.getD v none)
      = (rankM a + sumPot rest) + rankM x
    have := sumPot_set rest v x (by simpa using h)
    omega

theorem beq_of_perm {a b : PointerBase} (ha : a.Overdef = false)
    (hb : b.Overdef = false) (hperm : a.Values.Perm b.Values) :
    a.beq b = true := by
  simp [PointerBase.beq, ha, hb, hperm.length_eq, sortVCs_eq_iff.mpr hperm]

theorem beq_of_overdef {a b : PointerBase} (ha : a.Overdef = true)
    (hb : b.Overdef = true) : a.beq b = true := by
  simp [PointerBase.beq, ha, hb]

theorem rankM_strict (o newPB : PointerBase) (hwo : WFfact o)
    (hle : pbLECore o newPB) (hbeq : o.beq newPB = false) :
    rankM (some o) < rankM (some newPB) := by
  cases hno : newPB.Overdef
  · rcases hle with h | ⟨h1, h2⟩ | ⟨h1, _, _, hsub⟩
    · rw [hno] at h
      exact absurd h (by simp)
    · exact absurd h2 (hwo.2.2.2 h1)
    · have hlen := nodup_subset_length_le hwo.1 hsub
      have hne : o.Values.length ≠ newPB.Values.length := by
        intro heq
        have hsp := List.subperm_of_subset hwo.1 hsub
        have hperm := hsp.perm_of_length_le (Nat.le_of_eq heq.symm)
        exact absurd (beq_of_perm h1 hno hperm) (by simp [hbeq])
      have e1 : rankM (some o) = o.Values.length + 1 := by simp [rankM, h1]
      have e2 : rankM (some newPB) = newPB.Values.length + 1 := by
        simp [rankM, hno]
      rw [e1, e2]
      omega
  · have hoo : o.Overdef = false := by
      cases h : o.Overdef
      · rfl
      · exact absurd (beq_of_overdef h hno) (by simp [hbeq])
    have h2 := hwo.2.1
    have e1 : rankM (some o) = o.Values.length + 1 := by simp [rankM, hoo]
    have e2 : rankM (some newPB) = PBMAX + 2 := by simp [rankM, hno]
    rw [e1, e2]
    have hb : PBMAX = 16 := rfl
    omega

theorem sub_mono_helper {cap pot pot2 : Nat} (h1 : pot + 1 ≤ pot2)
    (h2 : pot2 ≤ cap) : (cap - pot2) + 1 ≤ cap - pot := by omega

theorem measureM_step_lt (defs : List PBDefKind) (finalise : Bool)
    (s : SolverQs) (hwd : WFdefs defs)
    (hlen : s.facts.length = defs.length)
    (hInv : InvM defs finalise s.facts) (hwf : WFenv s.facts)
    (hne : ¬(s.consumeQ = [] ∧ s.produceQ = [])) :
    measureM defs (solverStepM defs finalise s) < measureM defs s := by
  rcases solverStepM_cases defs finalise s with ⟨h1, h2, _⟩ |
    ⟨p, ps, h1, h2, heq⟩ | ⟨v, rest, newFacts, chg, h1, hres, heq⟩
  · exact absurd ⟨h1, h2⟩ hne
  · have hsu := sortUnique_length_le (p :: ps)
    rw [heq]
    simp only [measureM, h1, h2, List.length_nil, List.length_cons]
    rw [if_neg (List.cons_ne_nil p ps)]
    simp only [if_true]
    rw [List.length_cons] at hsu
    generalize (2 * defs.length + 2) *
      ((PBMAX + 2) * defs.length - sumPot s.facts) = Q
    omega
  · rcases updateBasePointerM_cases defs finalise s.facts v with hnoop |
      ⟨newPB, ht, hstore, _, hdisj⟩
    · rw [hnoop] at hres
      injection hres with hf hc
      subst hf
      subst hc
      rw [heq]
      rw [if_neg (by simp : ¬(false = true))]
      simp only [measureM, h1, List.length_cons]
      generalize (2 * defs.length + 2) *
        ((PBMAX + 2) * defs.length - sumPot s.facts) = Q
      generalize (if s.produceQ = [] then (0 : Nat) else 1) = i
      omega
    · rw [hstore] at hres
      injection hres with hf hc
      subst hf
      subst hc
      have hvlt : v < s.facts.length := by
        by_cases h : v < defs.length
        · omega
        · have hnone : defs[v]? = none := by
            rw [List.getElem?_eq_none]
            omega
          rw [transferM, hnone] at ht
          exact absurd ht (by simp)
      have hrank : rankM (s.facts.getD v none) < rankM (some newPB) := by
        rcases hdisj with hnone | ⟨o, ho, hbeq⟩
        · rw [hnone]
          cases hod : newPB.Overdef
          · have e2 : rankM (some newPB) = newPB.Values.length + 1 := by
              simp [rankM, hod]
            rw [e2]
            show 0 < newPB.Values.length + 1
            omega
          · have e2 : rankM (some newPB) = PBMAX + 2 := by simp [rankM, hod]
            rw [e2]
            show 0 < PBMAX + 2
            omega
        · rw [ho]
          have hwo := hwf v o ho
          have hleo : pbLECore o newPB := by
            have hq := hInv v
            rw [ho, ht] at hq
            exact hq
          exact rankM_strict o newPB hwo hleo hbeq
      have hset := sumPot_set s.facts v (some newPB) hvlt
      have hpot : sumPot s.facts + 1 ≤
          sumPot (s.facts.set v (some newPB)) := by omega
      have hwf2 : WFenv (s.facts.set v (some newPB)) := by
        have hstep := updateBasePointerM_step defs finalise s.facts v
          hwd hlen hInv hwf
        rw [hstore] at hstep
        exact hstep.2.2.1
      have hcap : sumPot (s.facts.set v (some newPB)) ≤
          (PBMAX + 2) * defs.length := by
        have h3 := sumPot_le_of_WFenv _ hwf2
        rw [List.length_set, hlen] at h3
        exact h3
      have hsub2 := sub_mono_helper hpot hcap
      have hmul := Nat.mul_le_mul (Nat.le_refl (2 * defs.length + 2)) hsub2
      rw [Nat.mul_add, Nat.mul_one] at hmul
      have hu := usersM_length_le defs v
      have hi2 : (if s.produceQ ++ usersM defs v = [] then (0 : Nat) else 1)
          ≤ 1 := by
        split
        · omega
        · omega
      rw [heq]
      rw [if_pos (rfl : true = true)]
      simp only [measureM, h1, List.length_cons, List.length_append]
      revert hmul hi2 hu
      generalize (2 * defs.length + 2) *
        ((PBMAX + 2) * defs.length - sumPot (s.facts.set v (some newPB))) = P
      generalize (2 * defs.length + 2) *
        ((PBMAX + 2) * defs.length - sumPot s.facts) = Q
      generalize (if s.produceQ ++ usersM defs v = [] then (0 : Nat) else 1) = i2
      generalize (if s.produceQ = [] then (0 : Nat) else 1) = i
      intro hmul hi2 hu
      omega

theorem solver_terminates_aux (defs : List PBDefKind) (finalise : Bool)
    (hwd : WFdefs defs) : ∀ (n : Nat) (s : SolverQs),
    measureM defs s ≤ n →
    s.facts.length = defs.length → InvM defs finalise s.facts →
    WFenv s.facts →
    ∃ k, (iterSolver defs finalise k s).consumeQ = [] ∧
      (iterSolver defs finalise k s).produceQ = []
  | 0, s, hm, hlen, hInv, hwf => by
    by_cases hdone : s.consumeQ = [] ∧ s.produceQ = []
    · exact ⟨0, hdone.1, hdone.2⟩
    · have hlt := measureM_step_lt defs finalise s hwd hlen hInv hwf hdone
      exact absurd (Nat.lt_of_lt_of_le hlt hm) (Nat.not_lt_zero _)
  | m+1, s, hm, hlen, hInv, hwf => by
    by_cases hdone : s.consumeQ = [] ∧ s.produceQ = []
    · exact ⟨0, hdone.1, hdone.2⟩
    · have hlt := measureM_step_lt defs finalise s hwd hlen hInv hwf hdone
      have hinv2 := solverStepM_inv defs finalise s hwd hlen hInv hwf
      obtain ⟨k, hk1, hk2⟩ := solver_terminates_aux defs finalise hwd m
        (solverStepM defs finalise s)
        (Nat.lt_succ_iff.mp (Nat.lt_of_lt_of_le hlt hm))
        hinv2.1 hinv2.2.1 hinv2.2.2
      exact ⟨k + 1, hk1, hk2⟩

/-- C9: the double-buffered worklist loop of runPointerBaseSolver terminates
for every starting queue content: from any well-formed state satisfying the
solver invariant, finitely many steps (each an updateBasePointer invocation
on the consume queue's head, or a sort-and-unique swap of the buffers) empty
both queues, because every stored fact can only climb the finite bounded
PointerBase lattice. -/
theorem C9_solver_termination (defs : List PBDefKind) (finalise : Bool)
    (s : SolverQs) (hwd : WFdefs defs)
    (hlen : s.facts.length = defs.length)
    (hInv : InvM defs finalise s.facts) (hwf : WFenv s.facts) :
    ∃ k, (iterSolver defs finalise k s).consumeQ = [] ∧
      (iterSolver defs finalise k s).produceQ = [] :=
  solver_terminates_aux defs finalise hwd (measureM defs s) s
    (Nat.le_refl _) hlen hInv hwf

/-- Witness for C9 at a concrete input: the one-value program of a single
predecessor-less PHI, started on the cleared table with its value queued. -/
theorem C9_witness :
    WFdefs [PBDefKind.phi []] ∧
    (SolverQs.mk (List.replicate 1 none) [0] []).facts.length =
      [PBDefKind.phi []].length ∧
    InvM [PBDefKind.phi []] false
      (SolverQs.mk (List.replicate 1 none) [0] []).facts ∧
    WFenv (SolverQs.mk (List.replicate 1 none) [0] []).facts ∧
    (∃ k, (iterSolver [PBDefKind.phi []] false k
        (SolverQs.mk (List.replicate 1 none) [0] [])).consumeQ = [] ∧
      (iterSolver [PBDefKind.phi []] false k
        (SolverQs.mk (List.replicate 1 none) [0] [])).produceQ = []) :=
  ⟨WFdefs_phiNil, rfl, InvM_replicate _ _ _, WFenv_replicate _,
    C9_solver_termination [PBDefKind.phi []] false
      (SolverQs.mk (List.replicate 1 none) [0] []) WFdefs_phiNil rfl
      (InvM_replicate _ _ _) (WFenv_replicate _)⟩

end LLPE
